import Mathlib

/-!
# Detective Quest: rooms, collected clues and the clue -> suspect table

A shallow embedding of `algoritmos_avancados.c`.

* A C string is the list of its bytes before the terminating NUL, each byte
  given by its `unsigned char` value (1..255).  `NULL` arguments are `none`.
* Pointers to heap nodes become inductive values, `NULL` being the `nil`
  constructor; functions that update a structure in place return the new one.
* `malloc` is taken to succeed (the failure branch exits the process).
-/

namespace DetectiveQuest

/-- A C string: the bytes before the terminating NUL, as `unsigned char` values. -/
abbrev Texto := List Nat

/-- The constant `MAX_NOME` (`#define MAX_NOME 80`): size of a name buffer. -/
def MAX_NOME : Nat := 80

/-- The constant `MAX_PISTA` (`#define MAX_PISTA 120`): size of a clue buffer. -/
def MAX_PISTA : Nat := 120

/-- The constant `HASH_SIZE` (`#define HASH_SIZE 31`): number of buckets. -/
def HASH_SIZE : Nat := 31

/-- The C `strlen`: the number of bytes before the NUL. -/
def strlen (s : Texto) : Nat := s.length

/-- The C `strcmp`: compares byte by byte as `unsigned char`; a proper prefix is smaller.
Only the sign of the C result is specified, it is given here as -1, 0 or 1. -/
def strcmp : Texto → Texto → Int
  | [], [] => 0
  | [], _ :: _ => -1
  | _ :: _, [] => 1
  | a :: s, b :: t => if a < b then -1 else if b < a then 1 else strcmp s t

/-- The text left in a buffer by `strncpy(dst, src, n); dst[n] = 0`, the idiom the
program uses with `n = MAX - 1`: the first `n` bytes of `src`. -/
def strncpy (src : Texto) (n : Nat) : Texto := src.take n

/-- The `struct PistaNode`: a node of the binary search tree of collected clues. -/
inductive PistaNode where
  | nil : PistaNode
  | node (pista : Texto) (esq dir : PistaNode) : PistaNode
  deriving DecidableEq, Repr

/-- The function `inserirPista(raiz, pista)`: returns the root of the tree after the insertion. -/
def inserirPista (raiz : PistaNode) (pista : Option Texto) : PistaNode :=
  match pista with
  | none => raiz
  | some p =>
    if strlen p = 0 then raiz
    else
      match raiz with
      | .nil => .node (strncpy p (MAX_PISTA - 1)) .nil .nil
      | .node k esq dir =>
        let cmp := strcmp p k
        if cmp < 0 then .node k (inserirPista esq pista) dir
        else if cmp > 0 then .node k esq (inserirPista dir pista)
        else .node k esq dir

/-- The function `exibirPistasEmOrdem(raiz)`: the clue texts in the order they are printed. -/
def exibirPistasEmOrdem : PistaNode → List Texto
  | .nil => []
  | .node k esq dir => exibirPistasEmOrdem esq ++ k :: exibirPistasEmOrdem dir

/-- The number of nodes of a clue tree. -/
def numPistas : PistaNode → Nat
  | .nil => 0
  | .node _ esq dir => numPistas esq + 1 + numPistas dir

/-- The tree obtained from the empty collection by inserting the texts in order. -/
def inserirTodas (ps : List Texto) : PistaNode :=
  ps.foldl (fun t p => inserirPista t (some p)) .nil

/-- The `struct HashNode` without its `proximo` link: a bucket chain is the list of its
nodes, head first. -/
structure HashNode where
  pista : Texto
  suspeito : Texto
  deriving DecidableEq, Repr

/-- The array `HashNode *tabelaHash[HASH_SIZE]`: the list of the bucket chains. -/
abbrev Tabela := List (List HashNode)

/-- The table after `for (i...) tabelaHash[i] = NULL` in `main`. -/
def tabelaVazia : Tabela := List.replicate HASH_SIZE []

/-- The function `hashString(s)`: `h = h * 31u + byte` in `unsigned int` (32 bits), then `h % HASH_SIZE`. -/
def hashString (s : Texto) : Nat :=
  (s.foldl (fun h b => (h * 31 + b) % 2 ^ 32) 0) % HASH_SIZE

/-- The `while (curr)` loop of `inserirNaHash`: the chain with the suspect of the first
node whose clue equals `pista` overwritten, or `none` when the loop runs off the chain. -/
def atualizarCadeia (pista suspeito : Texto) : List HashNode → Option (List HashNode)
  | [] => none
  | curr :: proximo =>
    if strcmp curr.pista pista = 0 then
      some ({ curr with suspeito := strncpy suspeito (MAX_NOME - 1) } :: proximo)
    else
      (atualizarCadeia pista suspeito proximo).map (fun resto => curr :: resto)

/-- The function `inserirNaHash(tabela, pista, suspeito)`: the table after the call. -/
def inserirNaHash (tabela : Tabela) (pista suspeito : Texto) : Tabela :=
  let idx := hashString pista
  match atualizarCadeia pista suspeito (tabela.getD idx []) with
  | some cadeia => tabela.set idx cadeia
  | none =>
    let novo : HashNode :=
      { pista := strncpy pista (MAX_PISTA - 1), suspeito := strncpy suspeito (MAX_NOME - 1) }
    tabela.set idx (novo :: tabela.getD idx [])

/-- The `while (curr)` loop of `encontrarSuspeito` over one chain. -/
def buscarCadeia (pista : Texto) : List HashNode → Option Texto
  | [] => none
  | curr :: proximo =>
    if strcmp curr.pista pista = 0 then some curr.suspeito else buscarCadeia pista proximo

/-- The function `encontrarSuspeito(tabela, pista)`: the suspect text, `none` for `NULL`. -/
def encontrarSuspeito (tabela : Tabela) (pista : Texto) : Option Texto :=
  buscarCadeia pista (tabela.getD (hashString pista) [])

/-- The `struct Sala`: a room of the mansion; `nil` is the `NULL` pointer. -/
inductive Sala where
  | nil : Sala
  | sala (nome pista : Texto) (esquerda direita : Sala) : Sala
  deriving DecidableEq, Repr

/-- The function `criarSala(nome, pista)`: a room without children; a `NULL` clue gives the empty text. -/
def criarSala (nome : Texto) (pista : Option Texto) : Sala :=
  .sala (strncpy nome (MAX_NOME - 1))
    (match pista with
     | some p => strncpy p (MAX_PISTA - 1)
     | none => [])
    .nil .nil

/-- What a run of `explorarSalas` has done once the decisions given to it are used up or
it has returned: the rooms it was called on, in order, the clue tree it leaves in
`*arvorePistas`, the decisions `scanf` has not read, and whether the outermost call has
returned (`false`: the run is at the prompt of some room, waiting for the next decision). -/
structure Exploracao where
  visitadas : List Sala
  pistas : PistaNode
  resto : List Char
  terminou : Bool
  deriving DecidableEq, Repr

/-- Records the call of `explorarSalas` on the room `s` in front of what follows it. -/
def entrar (s : Sala) (e : Exploracao) : Exploracao :=
  { e with visitadas := s :: e.visitadas }

/-- The `while (1)` loop of `explorarSalas` at the room `atual`, one iteration for each
decision read by `scanf(" %c", &opcao)`; the recursive calls on a child are recorded with
`entrar`.  The table argument of the C function is only passed along and is left out. -/
def explorarLaco (atual : Sala) (arvorePistas : PistaNode) (entrada : List Char) :
    Exploracao :=
  match atual with
  | .nil => { visitadas := [], pistas := arvorePistas, resto := entrada, terminou := true }
  | .sala nome pista esquerda direita =>
    let arvore :=
      if strlen pista > 0 then inserirPista arvorePistas (some pista) else arvorePistas
    match entrada with
    | [] => { visitadas := [], pistas := arvore, resto := [], terminou := false }
    | opcao :: resto =>
      if opcao = 'e' ∧ esquerda ≠ .nil then
        entrar esquerda (explorarLaco esquerda arvore resto)
      else if opcao = 'd' ∧ direita ≠ .nil then
        entrar direita (explorarLaco direita arvore resto)
      else if opcao = 's' then
        { visitadas := [], pistas := arvore, resto := resto, terminou := true }
      else
        explorarLaco (.sala nome pista esquerda direita) arvore resto
termination_by structural entrada

/-- The function `explorarSalas(atual, &arvorePistas, tabelaHash)` with the decisions `entrada` on the
standard input. -/
def explorarSalas (atual : Sala) (arvorePistas : PistaNode) (entrada : List Char) :
    Exploracao :=
  match atual with
  | .nil => { visitadas := [], pistas := arvorePistas, resto := entrada, terminou := true }
  | .sala nome pista esquerda direita =>
    entrar (.sala nome pista esquerda direita)
      (explorarLaco (.sala nome pista esquerda direita) arvorePistas entrada)

/-- The function `contarPistasPorSuspeitoAux(raiz, suspeito, tabelaHash)`.  The `int` sum is a natural
number here: it is bounded by the number of nodes of the tree. -/
def contarPistasPorSuspeitoAux : PistaNode → Texto → Tabela → Nat
  | .nil, _, _ => 0
  | .node k esq dir, suspeito, tabelaHash =>
    contarPistasPorSuspeitoAux esq suspeito tabelaHash
      + (match encontrarSuspeito tabelaHash k with
         | some s => if strcmp s suspeito = 0 then 1 else 0
         | none => 0)
      + contarPistasPorSuspeitoAux dir suspeito tabelaHash

/-- The function `contarPistasPorSuspeito(raiz, suspeito, tabelaHash)`. -/
def contarPistasPorSuspeito (raiz : PistaNode) (suspeito : Texto) (tabelaHash : Tabela) : Nat :=
  contarPistasPorSuspeitoAux raiz suspeito tabelaHash

/-- What `verificarSuspeitoFinal` prints: the message that no clue was collected, or the
count followed by one of the two decisions. -/
inductive Veredito where
  | semPistas : Veredito
  | sustentada (contador : Nat) : Veredito
  | fraca (contador : Nat) : Veredito
  deriving DecidableEq, Repr

/-- The function `verificarSuspeitoFinal(arvorePistas, tabelaHash)`, with `acusado` the name `scanf`
leaves in the buffer. -/
def verificarSuspeitoFinal (arvorePistas : PistaNode) (tabelaHash : Tabela)
    (acusado : Texto) : Veredito :=
  match arvorePistas with
  | .nil => .semPistas
  | .node k esq dir =>
    let contador := contarPistasPorSuspeito (.node k esq dir) acusado tabelaHash
    if contador ≥ 2 then .sustentada contador else .fraca contador

/-- The table obtained from the empty table by the calls `inserirNaHash(pista, suspeito)`
in order. -/
def construirHash (chamadas : List (Texto × Texto)) : Tabela :=
  chamadas.foldl (fun t c => inserirNaHash t c.1 c.2) tabelaVazia

/-! ## Properties used in the statements -/

/-- The in-order sequence is strictly ascending under `strcmp`. -/
def Ascendente (t : PistaNode) : Prop :=
  (exibirPistasEmOrdem t).Pairwise (fun a b => strcmp a b < 0)

/-- The search order `inserirPista` relies on: texts in the left subtree compare below the
node's text, texts in the right subtree do not, and every stored text fits its buffer. -/
def Ordenada : PistaNode → Prop
  | .nil => True
  | .node k esq dir =>
    (∀ x ∈ exibirPistasEmOrdem esq, strcmp x k < 0) ∧
    (∀ x ∈ exibirPistasEmOrdem dir, 0 ≤ strcmp x k) ∧
    k.length ≤ 119 ∧ Ordenada esq ∧ Ordenada dir

/-- The chain of the bucket of `pista` after `inserirNaHash`. -/
def inserirCadeia (pista suspeito : Texto) (cadeia : List HashNode) : List HashNode :=
  match atualizarCadeia pista suspeito cadeia with
  | some c => c
  | none =>
    { pista := strncpy pista (MAX_PISTA - 1), suspeito := strncpy suspeito (MAX_NOME - 1) }
      :: cadeia

/-- The table invariant: 31 buckets, every node in the bucket of the hash of its stored
clue, no clue twice in a bucket. -/
def TabelaBemFormada (T : Tabela) : Prop :=
  T.length = HASH_SIZE ∧
  (∀ i, ∀ n ∈ T.getD i [], hashString n.pista = i) ∧
  (∀ i, ((T.getD i []).map HashNode.pista).Nodup)

/-- The associative map of the specification: the suspect of the last call whose clue
equals `q`, `none` when no call has clue `q`. -/
def mapaEspec (chamadas : List (Texto × Texto)) (q : Texto) : Option Texto :=
  (chamadas.reverse.find? (fun c => c.1 = q)).map (fun c => c.2)

/-- The field `atual->esquerda`, `NULL` for `NULL`. -/
def esquerdaDe : Sala → Sala
  | .nil => .nil
  | .sala _ _ esquerda _ => esquerda

/-- The field `atual->direita`, `NULL` for `NULL`. -/
def direitaDe : Sala → Sala
  | .nil => .nil
  | .sala _ _ _ direita => direita

/-- The rooms reached from `r` by a sequence of descend decisions, each of which must be
valid where it is taken: `e` with a left child, `d` with a right child. -/
def seguir : Sala → List Char → Option (List Sala)
  | r, [] => some [r]
  | r, d :: ds =>
    if d = 'e' ∧ esquerdaDe r ≠ .nil then
      (seguir (esquerdaDe r) ds).map (fun v => r :: v)
    else if d = 'd' ∧ direitaDe r ≠ .nil then
      (seguir (direitaDe r) ds).map (fun v => r :: v)
    else none

/-- The room `b` is a child of the room `a`. -/
def EhFilho (a b : Sala) : Prop :=
  b ≠ .nil ∧ (esquerdaDe a = b ∨ direitaDe a = b)

/-- The clue tree after the room's clue, if any, was collected. -/
def coletar (pista : Texto) (arvorePistas : PistaNode) : PistaNode :=
  if strlen pista > 0 then inserirPista arvorePistas (some pista) else arvorePistas

/-- The field `atual->pista`, empty for `NULL`. -/
def pistaDe : Sala → Texto
  | .nil => []
  | .sala _ pista _ _ => pista

/-- Every room of the tree holds texts that fit its arrays `char nome[MAX_NOME]` and
`char pista[MAX_PISTA]`, terminator included; a `struct Sala` cannot hold more. -/
def salaValida : Sala → Bool
  | .nil => true
  | .sala nome pista esquerda direita =>
    decide (strlen nome ≤ MAX_NOME - 1) && decide (strlen pista ≤ MAX_PISTA - 1)
      && salaValida esquerda && salaValida direita

/-- The accumulator of the specification, without a word size: `h` starts at 0 and becomes
`h * 31 + byte` for each byte in order. -/
def acumuladorEspec (s : Texto) : Nat :=
  s.foldl (fun h b => h * 31 + b) 0

/-- The integer sum of `byte_i * 31 ^ (n - 1 - i)` over the `n` bytes of a text. -/
def somaPolinomial : Texto → Nat
  | [] => 0
  | b :: s => b * 31 ^ s.length + somaPolinomial s

/-- The loop of `hashString` with every `unsigned int` operation spelled out: the product
`h * 31u` wraps at 32 bits, and so does the sum with the byte. -/
def acumulador32 : Nat → Texto → Nat
  | h, [] => h
  | h, b :: s => acumulador32 (((h * 31) % 2 ^ 32 + b) % 2 ^ 32) s

/-- The bytes of a string literal of the source file, which is encoded in UTF-8. -/
def literal (s : String) : Texto :=
  s.data.flatMap (fun c => (String.utf8EncodeChar c).map UInt8.toNat)

/-- The room `s` after the assignment `s->esquerda = e`. -/
def comEsquerda (s e : Sala) : Sala :=
  match s with
  | .nil => .nil
  | .sala nome pista _ direita => .sala nome pista e direita

/-- The room `s` after the assignment `s->direita = d`. -/
def comDireita (s d : Sala) : Sala :=
  match s with
  | .nil => .nil
  | .sala nome pista esquerda _ => .sala nome pista esquerda d

/-- The room tree `main` builds and passes to `explorarSalas` as `hall`.  The C code links
the rooms through pointers from the hall downwards; here each room receives its finished
children, which gives the same tree. -/
def mansao : Sala :=
  let hall := criarSala (literal "Hall de Entrada") (some (literal "Pegadas molhadas no tapete"))
  let salaEstar := criarSala (literal "Sala de Estar") (some (literal "Copo quebrado"))
  let cozinha := criarSala (literal "Cozinha") (some (literal "Faca com resquícios de tinta"))
  let biblioteca :=
    criarSala (literal "Biblioteca") (some (literal "Livro rasgado com anotações"))
  let jardim := criarSala (literal "Jardim") (some (literal "Botas com lama"))
  let escritorio :=
    criarSala (literal "Escritório") (some (literal "Carta com nome do suspeito A"))
  let sotao := criarSala (literal "Sotão") (some (literal ""))
  let quarto := criarSala (literal "Quarto Principal") (some (literal "fio de tecido vermelho"))
  let biblioteca1 := comEsquerda biblioteca quarto
  let salaEstar1 := comDireita (comEsquerda salaEstar biblioteca1) jardim
  let cozinha1 := comDireita (comEsquerda cozinha escritorio) sotao
  comDireita (comEsquerda hall salaEstar1) cozinha1

/-- The seven calls `inserirNaHash(tabelaHash, pista, suspeito)` of `main`, in order. -/
def associacoes : List (Texto × Texto) :=
  [(literal "Pegadas molhadas no tapete", literal "Suspeito B"),
   (literal "Copo quebrado", literal "Suspeito A"),
   (literal "Faca com resquícios de tinta", literal "Suspeito A"),
   (literal "Livro rasgado com anotações", literal "Suspeito C"),
   (literal "Botas com lama", literal "Suspeito B"),
   (literal "Carta com nome do suspeito A", literal "Suspeito A"),
   (literal "fio de tecido vermelho", literal "Suspeito C")]

/-- The table `main` passes to `explorarSalas` and `verificarSuspeitoFinal`. -/
def tabelaMain : Tabela := construirHash associacoes

/-- The number of rooms of a room tree. -/
def numSalas : Sala → Nat
  | .nil => 0
  | .sala _ _ esquerda direita => numSalas esquerda + 1 + numSalas direita

/-- The field `atual->nome`, empty for `NULL`. -/
def nomeDe : Sala → Texto
  | .nil => []
  | .sala nome _ _ _ => nome

/-- All downward paths of a room tree that start at its root, as lists of rooms. -/
def caminhos : Sala → List (List Sala)
  | .nil => []
  | .sala nome pista esquerda direita =>
    [.sala nome pista esquerda direita] ::
      ((caminhos esquerda ++ caminhos direita).map
        (fun v => .sala nome pista esquerda direita :: v))

/-- The suspects `encontrarSuspeito` resolves the clues of a collection to, in the order
of the traversal. -/
def suspeitosDe (t : PistaNode) (T : Tabela) : List Texto :=
  (exibirPistasEmOrdem t).filterMap (fun c => encontrarSuspeito T c)

/-- No suspect appears more than twice in the list, and at most one appears twice. -/
def NoMaximoUmSustentado (S : List Texto) : Prop :=
  (∀ a ∈ S, S.countP (fun x => x = a) ≤ 2) ∧
  (∀ a ∈ S, ∀ b ∈ S, 2 ≤ S.countP (fun x => x = a) → 2 ≤ S.countP (fun x => x = b) → a = b)

/-- The reference semantics of the clue collection: the non-empty texts of the sequence,
without repeats, sorted by `strcmp`. -/
def referencia (ps : List Texto) : List Texto :=
  ((ps.filter (fun p => p ≠ [])).dedup).insertionSort (fun a b => strcmp a b ≤ 0)

/-- Every entry of the table holds texts that fit the arrays of `struct HashNode`. -/
def TabelaLimitada (T : Tabela) : Prop :=
  ∀ n ∈ T.flatten, strlen n.pista ≤ MAX_PISTA - 1 ∧ strlen n.suspeito ≤ MAX_NOME - 1

/-- A text of 120 bytes `a`, one byte more than a clue buffer holds. -/
def pistaLonga : Texto := List.replicate 120 97

/-! ## `strcmp` -/

theorem strcmp_self (a : Texto) : strcmp a a = 0 := by
  induction a with
  | nil => rfl
  | cons x s ih => simp [strcmp, ih]

theorem eq_of_strcmp_eq_zero : ∀ (a b : Texto), strcmp a b = 0 → a = b
  | [], [], _ => rfl
  | [], _ :: _, h => by simp [strcmp] at h
  | _ :: _, [], h => by simp [strcmp] at h
  | x :: s, y :: t, h => by
    simp only [strcmp] at h
    split_ifs at h with h1 h2
    · omega
    · have hxy : x = y := by omega
      rw [hxy, eq_of_strcmp_eq_zero s t h]

theorem strcmp_eq_zero_iff (a b : Texto) : strcmp a b = 0 ↔ a = b :=
  ⟨eq_of_strcmp_eq_zero a b, fun h => h ▸ strcmp_self a⟩

theorem strcmp_pos_iff : ∀ (a b : Texto), 0 < strcmp a b ↔ strcmp b a < 0
  | [], [] => by simp [strcmp]
  | [], _ :: _ => by simp [strcmp]
  | _ :: _, [] => by simp [strcmp]
  | x :: s, y :: t => by
    simp only [strcmp]
    split_ifs <;> first | omega | simp | exact strcmp_pos_iff s t

theorem strcmp_trans : ∀ (a b c : Texto), strcmp a b < 0 → strcmp b c < 0 → strcmp a c < 0
  | [], [], _, h, _ => by simp [strcmp] at h
  | [], _ :: _, [], _, h => by simp [strcmp] at h
  | [], _ :: _, _ :: _, _, _ => by simp [strcmp]
  | _ :: _, [], _, h, _ => by simp [strcmp] at h
  | _ :: _, _ :: _, [], _, h => by simp [strcmp] at h
  | x :: s, y :: t, z :: u, h1, h2 => by
    simp only [strcmp] at h1 h2 ⊢
    split_ifs at h1 h2 ⊢ <;> first | omega | simp | exact strcmp_trans s t u h1 h2

theorem strcmp_take_neg : ∀ (n : Nat) (p k : Texto), strcmp p k < 0 → strcmp (p.take n) k < 0
  | _, [], [], h => by simp [strcmp] at h
  | _, [], _ :: _, _ => by simp [strcmp]
  | _, _ :: _, [], h => by simp [strcmp] at h
  | 0, _ :: _, _ :: _, _ => by simp [strcmp]
  | n + 1, x :: s, y :: t, h => by
    simp only [List.take_succ_cons, strcmp] at h ⊢
    split_ifs at h ⊢ <;> first | omega | exact strcmp_take_neg n s t h

theorem strcmp_take_nonneg : ∀ (n : Nat) (p k : Texto),
    0 < strcmp p k → k.length ≤ n → 0 ≤ strcmp (p.take n) k
  | _, [], [], h, _ => by simp [strcmp] at h
  | _, [], _ :: _, h, _ => by simp [strcmp] at h
  | n, _ :: _, [], _, _ => by cases n <;> simp [strcmp]
  | 0, _ :: _, _ :: _, _, hl => by simp at hl
  | n + 1, x :: s, y :: t, h, hl => by
    simp only [List.take_succ_cons, strcmp, List.length_cons] at h hl ⊢
    split_ifs at h ⊢ <;> first | omega | exact strcmp_take_nonneg n s t h (by omega)

/-! ## The clue tree -/

theorem inserirPista_nil (p : Texto) (hp : p ≠ []) :
    inserirPista .nil (some p) = .node (p.take 119) .nil .nil := by
  cases p with
  | nil => exact absurd rfl hp
  | cons a s => simp [inserirPista, strlen, strncpy, MAX_PISTA]

theorem inserirPista_node (p k : Texto) (l r : PistaNode) (hp : p ≠ []) :
    inserirPista (.node k l r) (some p) =
      if strcmp p k < 0 then .node k (inserirPista l (some p)) r
      else if 0 < strcmp p k then .node k l (inserirPista r (some p))
      else .node k l r := by
  cases p with
  | nil => exact absurd rfl hp
  | cons a s => simp [inserirPista, strlen]

theorem inserirPista_vazia (t : PistaNode) : inserirPista t (some []) = t := by
  cases t <;> simp [inserirPista, strlen]

theorem inserirPista_null (t : PistaNode) : inserirPista t none = t := by
  cases t <;> simp [inserirPista]

theorem numPistas_eq_length (t : PistaNode) : numPistas t = (exibirPistasEmOrdem t).length := by
  induction t with
  | nil => rfl
  | node k l r ihl ihr => simp [numPistas, exibirPistasEmOrdem, ihl, ihr]; omega

/-- Every text printed after an insertion was printed before or is the stored copy of the new text. -/
theorem mem_inserirPista (t : PistaNode) (p x : Texto) (hp : p ≠ [])
    (hx : x ∈ exibirPistasEmOrdem (inserirPista t (some p))) :
    x ∈ exibirPistasEmOrdem t ∨ x = p.take 119 := by
  induction t with
  | nil =>
    rw [inserirPista_nil p hp] at hx
    simp [exibirPistasEmOrdem] at hx
    exact Or.inr hx
  | node k l r ihl ihr =>
    rw [inserirPista_node p k l r hp] at hx
    split_ifs at hx with h1 h2
    · simp only [exibirPistasEmOrdem, List.mem_append, List.mem_cons] at hx ⊢
      rcases hx with h | h | h
      · rcases ihl h with h' | h'
        · exact Or.inl (Or.inl h')
        · exact Or.inr h'
      · exact Or.inl (Or.inr (Or.inl h))
      · exact Or.inl (Or.inr (Or.inr h))
    · simp only [exibirPistasEmOrdem, List.mem_append, List.mem_cons] at hx ⊢
      rcases hx with h | h | h
      · exact Or.inl (Or.inl h)
      · exact Or.inl (Or.inr (Or.inl h))
      · rcases ihr h with h' | h'
        · exact Or.inl (Or.inr (Or.inr h'))
        · exact Or.inr h'
    · exact Or.inl hx

/-- The text of an insertion is printed afterwards, when it fits the buffer. -/
theorem mem_inserirPista_self (t : PistaNode) (p : Texto) (hp : p ≠ []) (hl : p.length ≤ 119) :
    p ∈ exibirPistasEmOrdem (inserirPista t (some p)) := by
  induction t with
  | nil =>
    rw [inserirPista_nil p hp, List.take_of_length_le hl]
    simp [exibirPistasEmOrdem]
  | node k l r ihl ihr =>
    rw [inserirPista_node p k l r hp]
    split_ifs with h1 h2
    · simp only [exibirPistasEmOrdem, List.mem_append, List.mem_cons]
      exact Or.inl ihl
    · simp only [exibirPistasEmOrdem, List.mem_append, List.mem_cons]
      exact Or.inr (Or.inr ihr)
    · have h0 : strcmp p k = 0 := by omega
      rw [eq_of_strcmp_eq_zero p k h0]
      simp [exibirPistasEmOrdem]

/-- Texts printed before an insertion are still printed after it. -/
theorem mem_inserirPista_of_mem (t : PistaNode) (p : Option Texto) (x : Texto)
    (hx : x ∈ exibirPistasEmOrdem t) : x ∈ exibirPistasEmOrdem (inserirPista t p) := by
  cases p with
  | none => rwa [inserirPista_null]
  | some p =>
    by_cases hp : p = []
    · subst hp; rwa [inserirPista_vazia]
    · induction t with
      | nil => simp [exibirPistasEmOrdem] at hx
      | node k l r ihl ihr =>
        rw [inserirPista_node p k l r hp]
        simp only [exibirPistasEmOrdem, List.mem_append, List.mem_cons] at hx
        split_ifs with h1 h2
        · simp only [exibirPistasEmOrdem, List.mem_append, List.mem_cons]
          rcases hx with h | h | h
          · exact Or.inl (ihl h)
          · exact Or.inr (Or.inl h)
          · exact Or.inr (Or.inr h)
        · simp only [exibirPistasEmOrdem, List.mem_append, List.mem_cons]
          rcases hx with h | h | h
          · exact Or.inl h
          · exact Or.inr (Or.inl h)
          · exact Or.inr (Or.inr (ihr h))
        · simp only [exibirPistasEmOrdem, List.mem_append, List.mem_cons]
          exact hx

theorem ascendente_inserirPista (t : PistaNode) (p : Texto) (hl : p.length ≤ 119)
    (ht : Ascendente t) : Ascendente (inserirPista t (some p)) := by
  by_cases hp : p = []
  · subst hp; rwa [inserirPista_vazia]
  · induction t with
    | nil =>
      rw [inserirPista_nil p hp]
      simp [Ascendente, exibirPistasEmOrdem]
    | node k l r ihl ihr =>
      rw [inserirPista_node p k l r hp]
      have ht' := ht
      simp only [Ascendente, exibirPistasEmOrdem, List.pairwise_append, List.pairwise_cons,
        List.mem_cons] at ht'
      obtain ⟨hl', ⟨hkr, hr'⟩, hlr⟩ := ht'
      split_ifs with h1 h2
      · simp only [Ascendente, exibirPistasEmOrdem, List.pairwise_append, List.pairwise_cons,
          List.mem_cons]
        refine ⟨ihl hl', ⟨hkr, hr'⟩, ?_⟩
        intro a ha b hb
        rcases mem_inserirPista l p a hp ha with h | h
        · exact hlr a h b hb
        · rw [List.take_of_length_le hl] at h
          subst h
          rcases hb with hb | hb
          · rw [hb]; exact h1
          · exact strcmp_trans a k b h1 (hkr b hb)
      · simp only [Ascendente, exibirPistasEmOrdem, List.pairwise_append, List.pairwise_cons,
          List.mem_cons]
        have hkp : strcmp k p < 0 := (strcmp_pos_iff p k).1 h2
        refine ⟨hl', ⟨?_, ihr hr'⟩, ?_⟩
        · intro b hb
          rcases mem_inserirPista r p b hp hb with h | h
          · exact hkr b h
          · rw [List.take_of_length_le hl] at h
            rw [h]; exact hkp
        · intro a ha b hb
          rcases hb with hb | hb
          · exact hlr a ha b (Or.inl hb)
          · rcases mem_inserirPista r p b hp hb with h | h
            · exact hlr a ha b (Or.inr h)
            · rw [List.take_of_length_le hl] at h
              rw [h]
              exact strcmp_trans a k p (hlr a ha k (Or.inl rfl)) hkp
      · exact ht

theorem ordenada_inserirPista (t : PistaNode) (p : Option Texto) (ht : Ordenada t) :
    Ordenada (inserirPista t p) := by
  cases p with
  | none => rwa [inserirPista_null]
  | some p =>
    by_cases hp : p = []
    · subst hp; rwa [inserirPista_vazia]
    · induction t with
      | nil =>
        rw [inserirPista_nil p hp]
        simp [Ordenada, exibirPistasEmOrdem, List.length_take]
      | node k l r ihl ihr =>
        rw [inserirPista_node p k l r hp]
        obtain ⟨h1, h2, h3, h4, h5⟩ := ht
        split_ifs with c1 c2
        · refine ⟨?_, h2, h3, ihl h4, h5⟩
          intro x hx
          rcases mem_inserirPista l p x hp hx with h | h
          · exact h1 x h
          · rw [h]; exact strcmp_take_neg 119 p k c1
        · refine ⟨h1, ?_, h3, h4, ihr h5⟩
          intro x hx
          rcases mem_inserirPista r p x hp hx with h | h
          · exact h2 x h
          · rw [h]; exact strcmp_take_nonneg 119 p k c2 h3
        · exact ⟨h1, h2, h3, h4, h5⟩

theorem foldl_inserirPista_inv (P : PistaNode → Prop)
    (hP : ∀ t p, P t → P (inserirPista t (some p))) (ps : List Texto) (t : PistaNode)
    (ht : P t) : P (ps.foldl (fun t p => inserirPista t (some p)) t) := by
  induction ps generalizing t with
  | nil => exact ht
  | cons p ps ih => exact ih _ (hP t p ht)

theorem ordenada_inserirTodas (ps : List Texto) : Ordenada (inserirTodas ps) :=
  foldl_inserirPista_inv Ordenada (fun t p h => ordenada_inserirPista t (some p) h) ps .nil
    trivial

/-- A text held by a node of a search-ordered tree is found, and the insertion changes nothing. -/
theorem inserirPista_of_mem (t : PistaNode) (c : Texto) (ht : Ordenada t)
    (hc : c ∈ exibirPistasEmOrdem t) : inserirPista t (some c) = t := by
  by_cases hp : c = []
  · subst hp; exact inserirPista_vazia t
  · induction t with
    | nil => simp [exibirPistasEmOrdem] at hc
    | node k l r ihl ihr =>
      rw [inserirPista_node c k l r hp]
      obtain ⟨h1, h2, _, h4, h5⟩ := ht
      simp only [exibirPistasEmOrdem, List.mem_append, List.mem_cons] at hc
      split_ifs with c1 c2
      · rcases hc with h | h | h
        · rw [ihl h4 h]
        · rw [h, strcmp_self] at c1; omega
        · have := h2 c h; omega
      · rcases hc with h | h | h
        · have := h1 c h; omega
        · rw [h, strcmp_self] at c2; omega
        · rw [ihr h5 h]
      · rfl

/-- Inserting a text that fits the buffer a second time changes nothing, in any tree. -/
theorem inserirPista_idem (t : PistaNode) (c : Texto) (hl : c.length ≤ 119) :
    inserirPista (inserirPista t (some c)) (some c) = inserirPista t (some c) := by
  by_cases hp : c = []
  · subst hp; simp [inserirPista_vazia]
  · induction t with
    | nil =>
      rw [inserirPista_nil c hp, List.take_of_length_le hl, inserirPista_node c c _ _ hp]
      simp [strcmp_self]
    | node k l r ihl ihr =>
      rw [inserirPista_node c k l r hp]
      split_ifs with c1 c2
      · rw [inserirPista_node c k _ r hp, if_pos c1, ihl]
      · rw [inserirPista_node c k l _ hp, if_neg c1, if_pos c2, ihr]
      · rw [inserirPista_node c k l r hp, if_neg c1, if_neg c2]

theorem ascendente_inserirTodas (ps : List Texto) (h : ∀ p ∈ ps, p.length ≤ 119) :
    Ascendente (inserirTodas ps) := by
  unfold inserirTodas
  generalize hnil : PistaNode.nil = t
  have ht : Ascendente t := by subst hnil; simp [Ascendente, exibirPistasEmOrdem]
  clear hnil
  induction ps generalizing t with
  | nil => exact ht
  | cons p ps ih =>
    exact ih (fun q hq => h q (List.mem_cons_of_mem _ hq)) _
      (ascendente_inserirPista t p (h p (List.mem_cons_self _ _)) ht)

theorem mem_foldl_inserirPista (ps : List Texto) (h : ∀ p ∈ ps, p.length ≤ 119)
    (t : PistaNode) (x : Texto) :
    x ∈ exibirPistasEmOrdem (ps.foldl (fun t p => inserirPista t (some p)) t) ↔
      x ∈ exibirPistasEmOrdem t ∨ (x ∈ ps ∧ x ≠ []) := by
  induction ps generalizing t with
  | nil => simp
  | cons p ps ih =>
    have hp := h p (List.mem_cons_self _ _)
    rw [List.foldl_cons, ih (fun q hq => h q (List.mem_cons_of_mem _ hq))]
    constructor
    · rintro (h1 | ⟨h1, h2⟩)
      · by_cases hne : p = []
        · subst hne; rw [inserirPista_vazia] at h1; exact Or.inl h1
        · rcases mem_inserirPista t p x hne h1 with h' | h'
          · exact Or.inl h'
          · rw [List.take_of_length_le hp] at h'
            subst h'
            exact Or.inr ⟨List.mem_cons_self _ _, hne⟩
      · exact Or.inr ⟨List.mem_cons_of_mem _ h1, h2⟩
    · rintro (h1 | ⟨h1, h2⟩)
      · exact Or.inl (mem_inserirPista_of_mem t (some p) x h1)
      · rcases List.mem_cons.1 h1 with h' | h'
        · subst h'
          exact Or.inl (mem_inserirPista_self t x h2 hp)
        · exact Or.inr ⟨h', h2⟩

theorem nodup_of_ascendente (t : PistaNode) (ht : Ascendente t) :
    (exibirPistasEmOrdem t).Nodup := by
  refine List.Pairwise.imp ?_ ht
  intro a b hab heq
  rw [heq, strcmp_self] at hab
  omega

/-! ## Claims on the clue collection -/

/-- Within the node buffer: when every text of the sequence has at most `MAX_PISTA - 1` = 119
bytes, the number of nodes of the tree built by `inserirPista` from the empty collection is
the number of distinct non-empty texts of the sequence. -/
theorem numPistas_inserirTodas (ps : List Texto)
    (h : ∀ p ∈ ps, strlen p ≤ MAX_PISTA - 1) :
    numPistas (inserirTodas ps) = ((ps.filter (fun p => p ≠ [])).toFinset).card := by
  have hna : (exibirPistasEmOrdem (inserirTodas ps)).Nodup :=
    nodup_of_ascendente _ (ascendente_inserirTodas ps h)
  rw [numPistas_eq_length, ← List.toFinset_card_of_nodup hna]
  congr 1
  ext x
  simp only [List.mem_toFinset, List.mem_filter, decide_eq_true_eq]
  unfold inserirTodas
  rw [mem_foldl_inserirPista ps h]
  simp [exibirPistasEmOrdem]

/-- C1, the code at the failing input: the same text of 120 bytes inserted twice into the
empty collection.  The first call stores its first 119 bytes; in the second call `strcmp`
finds the whole argument above the stored text, descends to the right and adds a second
node with the same 119 bytes.  The tree has two nodes for one distinct text, where the
claim, and the comments `sem duplicatas` and `não insere duplicata` of the source, ask
for one. -/
theorem numPistas_inserirTodas_longa :
    inserirTodas [pistaLonga, pistaLonga] =
      .node (List.replicate 119 97) .nil (.node (List.replicate 119 97) .nil .nil) ∧
    numPistas (inserirTodas [pistaLonga, pistaLonga]) = 2 ∧
    (([pistaLonga, pistaLonga].filter (fun p => p ≠ [])).toFinset).card = 1 :=
  ⟨by decide, rfl, by decide⟩

/-- Within the node buffer: when every text of the sequence has at most 119 bytes, the
sequence `exibirPistasEmOrdem` prints for the tree built from the empty collection is
strictly ascending under `strcmp`, hence holds no text twice. -/
theorem exibirPistasEmOrdem_ascendente (ps : List Texto)
    (h : ∀ p ∈ ps, strlen p ≤ MAX_PISTA - 1) :
    (exibirPistasEmOrdem (inserirTodas ps)).Pairwise (fun a b => strcmp a b < 0) ∧
    (exibirPistasEmOrdem (inserirTodas ps)).Nodup :=
  ⟨ascendente_inserirTodas ps h, nodup_of_ascendente _ (ascendente_inserirTodas ps h)⟩

theorem exibirPistasEmOrdem_duas_longas :
    exibirPistasEmOrdem (inserirTodas [pistaLonga, pistaLonga]) =
      [List.replicate 119 97, List.replicate 119 97] := by
  decide

/-- C2, the code at the failing input: after the same text of 120 bytes is inserted twice
into the empty collection, `exibirPistasEmOrdem` prints its first 119 bytes twice.  The
sequence is neither strictly ascending nor free of repeats, where the claim, and the
comment `sem duplicatas` of the source, ask for both. -/
theorem exibirPistasEmOrdem_longa :
    exibirPistasEmOrdem (inserirTodas [pistaLonga, pistaLonga]) =
      [List.replicate 119 97, List.replicate 119 97] ∧
    ¬ (exibirPistasEmOrdem (inserirTodas [pistaLonga, pistaLonga])).Pairwise
      (fun a b => strcmp a b < 0) ∧
    ¬ (exibirPistasEmOrdem (inserirTodas [pistaLonga, pistaLonga])).Nodup := by
  have e := exibirPistasEmOrdem_duas_longas
  refine ⟨e, ?_, ?_⟩
  · rw [e]
    simp [strcmp_self]
  · rw [e]
    simp

/-- What holds of the no-op cases: in every collection `t` built by insertions, inserting
the empty text or `NULL` changes nothing, inserting a text already held by a node of `t`
changes nothing, and inserting a second time a text of at most 119 bytes changes nothing. -/
theorem inserirPista_sem_efeito (ps : List Texto) (c : Texto) :
    inserirPista (inserirTodas ps) (some []) = inserirTodas ps ∧
    inserirPista (inserirTodas ps) none = inserirTodas ps ∧
    (c ∈ exibirPistasEmOrdem (inserirTodas ps) →
      inserirPista (inserirTodas ps) (some c) = inserirTodas ps) ∧
    (strlen c ≤ MAX_PISTA - 1 →
      inserirPista (inserirPista (inserirTodas ps) (some c)) (some c) =
        inserirPista (inserirTodas ps) (some c)) :=
  ⟨inserirPista_vazia _, inserirPista_null _,
    inserirPista_of_mem _ c (ordenada_inserirTodas ps),
    inserirPista_idem _ c⟩

/-- C3, the code at the failing input: a text `c` of 120 bytes and the empty collection
`t`.  The first insertion gives one node with the first 119 bytes of `c`; the second
insertion of `c` does not find it (`cmp` is not 0 against the stored bytes) and adds a
second node with the same bytes, so `inserirPista(inserirPista(t, c), c)` is not
`inserirPista(t, c)`, against the claim and the comment `se cmp == 0, já existe — não
insere duplicata` of the source. -/
theorem inserirPista_longa_duas_vezes :
    inserirPista (inserirTodas []) (some pistaLonga) =
      .node (List.replicate 119 97) .nil .nil ∧
    inserirPista (inserirPista (inserirTodas []) (some pistaLonga)) (some pistaLonga) =
      .node (List.replicate 119 97) .nil (.node (List.replicate 119 97) .nil .nil) ∧
    inserirPista (inserirPista (inserirTodas []) (some pistaLonga)) (some pistaLonga) ≠
      inserirPista (inserirTodas []) (some pistaLonga) := by
  decide

/-! ## The suspect table -/

theorem inserirNaHash_eq (T : Tabela) (c s : Texto) :
    inserirNaHash T c s =
      T.set (hashString c) (inserirCadeia c s (T.getD (hashString c) [])) := by
  unfold inserirNaHash inserirCadeia
  dsimp only
  cases atualizarCadeia c s (T.getD (hashString c) []) <;> rfl

theorem hashString_lt (s : Texto) : hashString s < HASH_SIZE :=
  Nat.mod_lt _ (by decide)

theorem getD_set_same (T : Tabela) (i : Nat) (a : List HashNode) (h : i < T.length) :
    (T.set i a).getD i [] = a := by
  simp [List.getD_eq_getElem?_getD, List.getElem?_set, h]

theorem getD_set_other (T : Tabela) (i j : Nat) (a : List HashNode) (h : i ≠ j) :
    (T.set i a).getD j [] = T.getD j [] := by
  simp [List.getD_eq_getElem?_getD, List.getElem?_set, h]

theorem length_inserirNaHash (T : Tabela) (c s : Texto) :
    (inserirNaHash T c s).length = T.length := by
  rw [inserirNaHash_eq, List.length_set]

theorem atualizarCadeia_none (c s : Texto) (ch : List HashNode)
    (h : atualizarCadeia c s ch = none) : ∀ n ∈ ch, n.pista ≠ c := by
  induction ch with
  | nil => simp
  | cons n rest ih =>
    simp only [atualizarCadeia] at h
    split_ifs at h with h0
    simp only [Option.map_eq_none'] at h
    intro m hm
    rcases List.mem_cons.1 hm with rfl | hm
    · intro e; exact h0 ((strcmp_eq_zero_iff _ _).2 e)
    · exact ih h m hm

theorem atualizarCadeia_some (c s : Texto) (ch ch' : List HashNode)
    (h : atualizarCadeia c s ch = some ch') :
    ch'.map HashNode.pista = ch.map HashNode.pista ∧ c ∈ ch.map HashNode.pista := by
  induction ch generalizing ch' with
  | nil => simp [atualizarCadeia] at h
  | cons n rest ih =>
    simp only [atualizarCadeia] at h
    split_ifs at h with h0
    · simp only [Option.some.injEq] at h
      subst h
      have e := eq_of_strcmp_eq_zero _ _ h0
      simp [e]
    · simp only [Option.map_eq_some'] at h
      obtain ⟨r, hr, rfl⟩ := h
      obtain ⟨h1, h2⟩ := ih r hr
      simp [h1, h2]

theorem buscarCadeia_atualizar (c s q : Texto) (ch ch' : List HashNode)
    (h : atualizarCadeia c s ch = some ch') :
    buscarCadeia q ch' = if c = q then some (s.take 79) else buscarCadeia q ch := by
  induction ch generalizing ch' with
  | nil => simp [atualizarCadeia] at h
  | cons n rest ih =>
    simp only [atualizarCadeia] at h
    split_ifs at h with h0
    · simp only [Option.some.injEq] at h
      subst h
      have e := eq_of_strcmp_eq_zero _ _ h0
      simp only [buscarCadeia, e, strcmp_eq_zero_iff]
      split_ifs <;> simp [strncpy, MAX_NOME]
    · simp only [Option.map_eq_some'] at h
      obtain ⟨r, hr, rfl⟩ := h
      have hne : n.pista ≠ c := fun e => h0 ((strcmp_eq_zero_iff _ _).2 e)
      simp only [buscarCadeia, strcmp_eq_zero_iff, ih r hr]
      by_cases hq : n.pista = q
      · have : c ≠ q := fun e => hne (hq.trans e.symm)
        simp [hq, this]
      · simp [hq]

/-- Lookup in a chain after an insertion of a clue that fits the buffer. -/
theorem buscarCadeia_inserirCadeia (c s q : Texto) (ch : List HashNode)
    (hc : c.length ≤ 119) :
    buscarCadeia q (inserirCadeia c s ch) =
      if c = q then some (s.take 79) else buscarCadeia q ch := by
  unfold inserirCadeia
  cases h : atualizarCadeia c s ch with
  | some ch' => exact buscarCadeia_atualizar c s q ch ch' h
  | none =>
    simp only [buscarCadeia, strcmp_eq_zero_iff, strncpy, MAX_PISTA, MAX_NOME,
      List.take_of_length_le hc]

theorem pista_mem_inserirCadeia (c s : Texto) (ch : List HashNode) (n : HashNode)
    (hn : n ∈ inserirCadeia c s ch) :
    n.pista ∈ ch.map HashNode.pista ∨ n.pista = c.take 119 := by
  unfold inserirCadeia at hn
  cases h : atualizarCadeia c s ch with
  | some ch' =>
    rw [h] at hn
    left
    rw [← (atualizarCadeia_some c s ch ch' h).1]
    exact List.mem_map_of_mem _ hn
  | none =>
    rw [h] at hn
    rcases List.mem_cons.1 hn with rfl | hn
    · right; rfl
    · left; exact List.mem_map_of_mem _ hn

theorem nodup_inserirCadeia (c s : Texto) (ch : List HashNode) (hc : c.length ≤ 119)
    (hnd : (ch.map HashNode.pista).Nodup) :
    ((inserirCadeia c s ch).map HashNode.pista).Nodup := by
  unfold inserirCadeia
  cases h : atualizarCadeia c s ch with
  | some ch' =>
    simp only
    rw [(atualizarCadeia_some c s ch ch' h).1]
    exact hnd
  | none =>
    simp only [List.map_cons, strncpy, MAX_PISTA, List.take_of_length_le hc, List.nodup_cons]
    refine ⟨?_, hnd⟩
    intro hm
    obtain ⟨n, hn, e⟩ := List.mem_map.1 hm
    exact atualizarCadeia_none c s ch h n hn e

theorem getD_tabelaVazia (i : Nat) : tabelaVazia.getD i [] = [] := by
  simp only [tabelaVazia, List.getD_eq_getElem?_getD, List.getElem?_replicate]
  split_ifs <;> rfl

theorem tabelaBemFormada_vazia : TabelaBemFormada tabelaVazia := by
  refine ⟨by simp [tabelaVazia], ?_, ?_⟩
  · intro i n hn
    rw [getD_tabelaVazia] at hn
    simp at hn
  · intro i
    rw [getD_tabelaVazia]
    simp

theorem tabelaBemFormada_inserirNaHash (T : Tabela) (c s : Texto) (hc : c.length ≤ 119)
    (hT : TabelaBemFormada T) : TabelaBemFormada (inserirNaHash T c s) := by
  obtain ⟨h1, h2, h3⟩ := hT
  have hlt : hashString c < T.length := h1 ▸ hashString_lt c
  rw [inserirNaHash_eq]
  refine ⟨by rw [List.length_set, h1], ?_, ?_⟩
  · intro i n hn
    by_cases hi : hashString c = i
    · subst hi
      rw [getD_set_same T _ _ hlt] at hn
      rcases pista_mem_inserirCadeia c s _ n hn with h | h
      · obtain ⟨m, hm, e⟩ := List.mem_map.1 h
        rw [← e]
        exact h2 _ m hm
      · rw [h, List.take_of_length_le hc]
    · rw [getD_set_other T _ _ _ hi] at hn
      exact h2 i n hn
  · intro i
    by_cases hi : hashString c = i
    · subst hi
      rw [getD_set_same T _ _ hlt]
      exact nodup_inserirCadeia c s _ hc (h3 _)
    · rw [getD_set_other T _ _ _ hi]
      exact h3 i

theorem tabelaBemFormada_foldl (cs : List (Texto × Texto))
    (h : ∀ c ∈ cs, c.1.length ≤ 119) (T : Tabela) (hT : TabelaBemFormada T) :
    TabelaBemFormada (cs.foldl (fun t c => inserirNaHash t c.1 c.2) T) := by
  induction cs generalizing T with
  | nil => exact hT
  | cons c cs ih =>
    exact ih (fun d hd => h d (List.mem_cons_of_mem _ hd)) _
      (tabelaBemFormada_inserirNaHash T c.1 c.2 (h c (List.mem_cons_self _ _)) hT)

theorem tabelaBemFormada_construirHash (cs : List (Texto × Texto))
    (h : ∀ c ∈ cs, c.1.length ≤ 119) : TabelaBemFormada (construirHash cs) :=
  tabelaBemFormada_foldl cs h _ tabelaBemFormada_vazia

/-- In a well-formed table no clue is stored twice, whatever the buckets. -/
theorem nodup_pistas_tabela (T : Tabela) (hT : TabelaBemFormada T) :
    (T.flatten.map HashNode.pista).Nodup := by
  obtain ⟨_, h2, h3⟩ := hT
  rw [List.map_flatten, List.nodup_flatten]
  constructor
  · intro l hl
    obtain ⟨ch, hch, rfl⟩ := List.mem_map.1 hl
    obtain ⟨i, hi, rfl⟩ := List.mem_iff_getElem.1 hch
    have := h3 i
    rwa [List.getD_eq_getElem T [] hi] at this
  · rw [List.pairwise_iff_getElem]
    intro i j hi hj hij
    simp only [List.length_map] at hi hj
    simp only [List.getElem_map]
    intro x hx hy
    obtain ⟨n, hn, e1⟩ := List.mem_map.1 hx
    obtain ⟨m, hm, e2⟩ := List.mem_map.1 hy
    have a1 := h2 i n (by rw [List.getD_eq_getElem T [] hi]; exact hn)
    have a2 := h2 j m (by rw [List.getD_eq_getElem T [] hj]; exact hm)
    rw [e1] at a1
    rw [e2] at a2
    omega

/-- Lookup after one call of `inserirNaHash` with a clue that fits the buffer. -/
theorem encontrarSuspeito_inserirNaHash (T : Tabela) (c s q : Texto)
    (hT : T.length = HASH_SIZE) (hc : c.length ≤ 119) :
    encontrarSuspeito (inserirNaHash T c s) q =
      if c = q then some (s.take 79) else encontrarSuspeito T q := by
  have hlt : hashString c < T.length := hT ▸ hashString_lt c
  unfold encontrarSuspeito
  rw [inserirNaHash_eq]
  by_cases hi : hashString c = hashString q
  · rw [← hi, getD_set_same T _ _ hlt, buscarCadeia_inserirCadeia c s q _ hc]
  · rw [getD_set_other T _ _ _ hi]
    have : c ≠ q := fun e => hi (e ▸ rfl)
    simp [this]

theorem buscarCadeia_some_mem (q s : Texto) (ch : List HashNode)
    (h : buscarCadeia q ch = some s) : q ∈ ch.map HashNode.pista := by
  induction ch with
  | nil => simp [buscarCadeia] at h
  | cons n rest ih =>
    simp only [buscarCadeia] at h
    split_ifs at h with h0
    · simp [eq_of_strcmp_eq_zero _ _ h0]
    · simp [ih h]

theorem encontrarSuspeito_some_mem (T : Tabela) (q s : Texto)
    (h : encontrarSuspeito T q = some s) : q ∈ T.flatten.map HashNode.pista := by
  unfold encontrarSuspeito at h
  have hm := buscarCadeia_some_mem q s _ h
  obtain ⟨n, hn, e⟩ := List.mem_map.1 hm
  refine List.mem_map.2 ⟨n, List.mem_flatten.2 ⟨_, ?_, hn⟩, e⟩
  rw [List.getD_eq_getElem?_getD] at hn ⊢
  cases hg : T[hashString q]? with
  | none => rw [hg] at hn; simp at hn
  | some l => exact List.getElem?_mem hg

theorem encontrarSuspeito_foldl (cs : List (Texto × Texto))
    (h : ∀ c ∈ cs, c.1.length ≤ 119) (T : Tabela) (hT : T.length = HASH_SIZE) (q : Texto) :
    encontrarSuspeito (cs.foldl (fun t c => inserirNaHash t c.1 c.2) T) q =
      match mapaEspec cs q with
      | some s => some (s.take 79)
      | none => encontrarSuspeito T q := by
  induction cs generalizing T with
  | nil => simp [mapaEspec]
  | cons c cs ih =>
    rw [List.foldl_cons, ih (fun d hd => h d (List.mem_cons_of_mem _ hd)) _
      (by rw [length_inserirNaHash, hT])]
    rw [encontrarSuspeito_inserirNaHash T c.1 c.2 q hT (h c (List.mem_cons_self _ _))]
    simp only [mapaEspec, List.reverse_cons, List.find?_append]
    cases hf : cs.reverse.find? (fun c => decide (c.1 = q)) with
    | some d => simp
    | none =>
      by_cases hq : c.1 = q <;> simp [hq]

/-! ## Claims on the suspect table -/

theorem mapaEspec_some_mem (cs : List (Texto × Texto)) (q s : Texto)
    (h : mapaEspec cs q = some s) : ∃ d ∈ cs, d.2 = s := by
  simp only [mapaEspec, Option.map_eq_some'] at h
  obtain ⟨d, hd, e⟩ := h
  exact ⟨d, List.mem_reverse.1 (List.mem_of_find?_eq_some hd), e⟩

theorem encontrarSuspeito_construirHash (cs : List (Texto × Texto)) (q : Texto)
    (hcs : ∀ d ∈ cs, d.1.length ≤ 119) :
    encontrarSuspeito (construirHash cs) q = (mapaEspec cs q).map (fun s => s.take 79) := by
  unfold construirHash
  rw [encontrarSuspeito_foldl cs hcs _ tabelaBemFormada_vazia.1 q]
  cases mapaEspec cs q with
  | some s => rfl
  | none =>
    unfold encontrarSuspeito
    rw [getD_tabelaVazia]
    rfl

theorem countP_pista_eq_one (l : List HashNode) (c : Texto)
    (hnd : (l.map HashNode.pista).Nodup) (hc : c ∈ l.map HashNode.pista) :
    l.countP (fun n => n.pista = c) = 1 := by
  induction l with
  | nil => simp at hc
  | cons n rest ih =>
    simp only [List.map_cons, List.nodup_cons, List.mem_cons] at hnd hc
    by_cases h : n.pista = c
    · have h0 : rest.countP (fun n => n.pista = c) = 0 := by
        rw [List.countP_eq_zero]
        intro m hm
        simp only [decide_eq_true_eq]
        intro e
        exact hnd.1 (List.mem_map.2 ⟨m, hm, e.trans h.symm⟩)
      rw [List.countP_cons, h0]
      simp [h]
    · have hm : c ∈ rest.map HashNode.pista := by
        rcases hc with e | e
        · exact absurd e.symm h
        · exact e
      rw [List.countP_cons, ih hnd.2 hm]
      simp [h]

/-- C4 (as amended): for every table built from the empty table by `inserirNaHash` calls
with clues of at most 119 bytes, every clue `c` of at most 119 bytes and all suspects
`s1`, `s2`: after `inserirNaHash(c, s1)` and `inserirNaHash(c, s2)`, `encontrarSuspeito(c)`
returns the first 79 bytes of `s2`, which is `s2` itself when `s2` has at most 79 bytes,
and the whole table holds exactly one entry whose clue is `c`. -/
theorem encontrarSuspeito_ultima_escrita (cs : List (Texto × Texto)) (c s1 s2 : Texto)
    (hcs : ∀ d ∈ cs, strlen d.1 ≤ MAX_PISTA - 1) (hc : strlen c ≤ MAX_PISTA - 1) :
    encontrarSuspeito (inserirNaHash (inserirNaHash (construirHash cs) c s1) c s2) c =
      some (strncpy s2 (MAX_NOME - 1)) ∧
    (strlen s2 ≤ MAX_NOME - 1 →
      encontrarSuspeito (inserirNaHash (inserirNaHash (construirHash cs) c s1) c s2) c =
        some s2) ∧
    (inserirNaHash (inserirNaHash (construirHash cs) c s1) c s2).flatten.countP
      (fun n => n.pista = c) = 1 := by
  have w0 := tabelaBemFormada_construirHash cs hcs
  have w1 := tabelaBemFormada_inserirNaHash _ c s1 hc w0
  have w2 := tabelaBemFormada_inserirNaHash _ c s2 hc w1
  have e : encontrarSuspeito (inserirNaHash (inserirNaHash (construirHash cs) c s1) c s2) c =
      some (s2.take 79) := by
    rw [encontrarSuspeito_inserirNaHash _ c s2 c w1.1 hc, if_pos rfl]
  refine ⟨e, ?_, ?_⟩
  · intro hs
    have hs' : s2.length ≤ 79 := hs
    rw [e, List.take_of_length_le hs']
  · exact countP_pista_eq_one _ c (nodup_pistas_tabela _ w2)
      (encontrarSuspeito_some_mem _ c _ e)

/-- Witness of C4: the clue `B` written twice into the table that holds `A`. -/
theorem encontrarSuspeito_ultima_escrita_witness :
    (∀ d ∈ [(([65] : Texto), ([88] : Texto))], strlen d.1 ≤ MAX_PISTA - 1) ∧
    strlen [66] ≤ MAX_PISTA - 1 ∧ strlen [89] ≤ MAX_NOME - 1 ∧
    encontrarSuspeito
      (inserirNaHash (inserirNaHash (construirHash [([65], [88])]) [66] [88]) [66] [89])
      [66] = some [89] ∧
    (inserirNaHash (inserirNaHash (construirHash [([65], [88])]) [66] [88]) [66]
      [89]).flatten.countP (fun n => n.pista = [66]) = 1 :=
  ⟨by decide, by decide, by decide,
    (encontrarSuspeito_ultima_escrita [([65], [88])] [66] [88] [89] (by decide)
      (by decide)).2.1 (by decide),
    (encontrarSuspeito_ultima_escrita [([65], [88])] [66] [88] [89] (by decide)
      (by decide)).2.2⟩

set_option maxRecDepth 20000 in
/-- C4 as stated fails: a clue of 120 bytes written twice is not found and no entry holds
it; a suspect of 80 bytes is returned without its last byte; and in a table built with a
clue of 120 bytes, writing the first 119 bytes of that clue twice leaves two entries with
that clue. -/
theorem encontrarSuspeito_ultima_escrita_longa :
    encontrarSuspeito
      (inserirNaHash (inserirNaHash (construirHash []) pistaLonga [88]) pistaLonga [89])
      pistaLonga = none ∧
    (inserirNaHash (inserirNaHash (construirHash []) pistaLonga [88]) pistaLonga
      [89]).flatten.countP (fun n => n.pista = pistaLonga) = 0 ∧
    encontrarSuspeito
      (inserirNaHash (inserirNaHash (construirHash []) [65] [88]) [65] (List.replicate 80 66))
      [65] = some (List.replicate 79 66) ∧
    (inserirNaHash (inserirNaHash (construirHash [(pistaLonga, [88])])
      (List.replicate 119 97) [88]) (List.replicate 119 97) [89]).flatten.countP
      (fun n => n.pista = List.replicate 119 97) = 2 := by
  decide

/-- C5 (as amended): for every sequence of `inserirNaHash(clue, suspect)` calls with clues
of at most 119 bytes applied to the empty 31-bucket table and every query `q`,
`encontrarSuspeito(q)` returns the first 79 bytes of the suspect of the last call whose
clue equals `q` (that suspect itself when all suspects have at most 79 bytes), and `NULL`
when no call has clue `q`. -/
theorem encontrarSuspeito_refina_mapa (cs : List (Texto × Texto)) (q : Texto)
    (hcs : ∀ d ∈ cs, strlen d.1 ≤ MAX_PISTA - 1) :
    encontrarSuspeito (construirHash cs) q =
      (mapaEspec cs q).map (fun s => strncpy s (MAX_NOME - 1)) ∧
    ((∀ d ∈ cs, strlen d.2 ≤ MAX_NOME - 1) →
      encontrarSuspeito (construirHash cs) q = mapaEspec cs q) ∧
    ((∀ d ∈ cs, d.1 ≠ q) → encontrarSuspeito (construirHash cs) q = none) := by
  have e := encontrarSuspeito_construirHash cs q hcs
  refine ⟨e, ?_, ?_⟩
  · intro hs
    rw [e]
    cases hm : mapaEspec cs q with
    | none => rfl
    | some s =>
      obtain ⟨d, hd, rfl⟩ := mapaEspec_some_mem cs q s hm
      have hs' : d.2.length ≤ 79 := hs d hd
      simp only [Option.map_some']
      rw [List.take_of_length_le hs']
  · intro hq
    rw [e]
    cases hm : mapaEspec cs q with
    | none => rfl
    | some s =>
      simp only [mapaEspec, Option.map_eq_some'] at hm
      obtain ⟨d, hd, _⟩ := hm
      have h1 := List.find?_some hd
      have h2 := List.mem_reverse.1 (List.mem_of_find?_eq_some hd)
      simp only [decide_eq_true_eq] at h1
      exact absurd h1 (hq d h2)

/-- Witness of C5: the clue `A` written twice with another clue in between. -/
theorem encontrarSuspeito_refina_mapa_witness :
    (∀ d ∈ [(([65] : Texto), ([88] : Texto)), ([66], [88]), ([65], [89])],
      strlen d.1 ≤ MAX_PISTA - 1) ∧
    encontrarSuspeito (construirHash [([65], [88]), ([66], [88]), ([65], [89])]) [65] =
      (mapaEspec [([65], [88]), ([66], [88]), ([65], [89])] [65]).map
        (fun s => strncpy s (MAX_NOME - 1)) ∧
    encontrarSuspeito (construirHash [([65], [88]), ([66], [88]), ([65], [89])]) [65] =
      mapaEspec [([65], [88]), ([66], [88]), ([65], [89])] [65] :=
  ⟨by decide,
    (encontrarSuspeito_refina_mapa [([65], [88]), ([66], [88]), ([65], [89])] [65]
      (by decide)).1,
    (encontrarSuspeito_refina_mapa [([65], [88]), ([66], [88]), ([65], [89])] [65]
      (by decide)).2.1 (by decide)⟩

set_option maxRecDepth 20000 in
/-- C5 as stated fails: after one call with a clue of 120 bytes the query for that clue
returns `NULL`, and a suspect of 80 bytes comes back without its last byte. -/
theorem encontrarSuspeito_refina_mapa_longa :
    encontrarSuspeito (construirHash [(pistaLonga, [88])]) pistaLonga = none ∧
    mapaEspec [(pistaLonga, [88])] pistaLonga = some [88] ∧
    encontrarSuspeito (construirHash [([65], List.replicate 80 66)]) [65] =
      some (List.replicate 79 66) ∧
    mapaEspec [([65], List.replicate 80 66)] [65] = some (List.replicate 80 66) := by
  decide

/-- Within the entry buffer: in every table built from the empty table by `inserirNaHash`
calls with clues of at most 119 bytes, there are 31 buckets, each entry is stored in the
bucket whose index is `hashString` of its stored clue, and no two entries of the same
bucket, hence of the whole table, hold equal clue text. -/
theorem tabela_invariante (cs : List (Texto × Texto))
    (hcs : ∀ d ∈ cs, strlen d.1 ≤ MAX_PISTA - 1) :
    (construirHash cs).length = HASH_SIZE ∧
    (∀ i, ∀ n ∈ (construirHash cs).getD i [], hashString n.pista = i) ∧
    (∀ i, (((construirHash cs).getD i []).map HashNode.pista).Nodup) ∧
    ((construirHash cs).flatten.map HashNode.pista).Nodup :=
  have w := tabelaBemFormada_construirHash cs hcs
  ⟨w.1, w.2.1, w.2.2, nodup_pistas_tabela _ w⟩

set_option maxRecDepth 20000 in
/-- C6, the code at the failing input: two calls of `inserirNaHash` on the empty table with
the same clue of 120 bytes and the suspects `X`, then `Y`.  The clue hashes to bucket 10;
the first call stores its first 119 bytes there; the second call does not find the clue
in the chain and, instead of overwriting the suspect as the comment `Se a pista já
existir, sobrescreve o suspeito` of the source says, adds a second entry at the head.
Bucket 10 then holds two entries with the same stored clue, and that stored clue has the
hash 12, where the claim asks for distinct clues, each in the bucket of its hash. -/
theorem tabela_invariante_longa :
    hashString pistaLonga = 10 ∧
    (construirHash [(pistaLonga, [88])]).getD 10 [] =
      [{ pista := List.replicate 119 97, suspeito := [88] }] ∧
    (construirHash [(pistaLonga, [88]), (pistaLonga, [89])]).getD 10 [] =
      [{ pista := List.replicate 119 97, suspeito := [89] },
       { pista := List.replicate 119 97, suspeito := [88] }] ∧
    ¬ (((construirHash [(pistaLonga, [88]), (pistaLonga, [89])]).getD 10 []).map
      HashNode.pista).Nodup ∧
    hashString (List.replicate 119 97) = 12 := by
  decide

/-! ## Claims on the accusation -/

theorem contarPistasPorSuspeitoAux_eq_countP (t : PistaNode) (T : Tabela) (a : Texto) :
    contarPistasPorSuspeitoAux t a T =
      (exibirPistasEmOrdem t).countP (fun c => encontrarSuspeito T c = some a) := by
  induction t with
  | nil => rfl
  | node k l r ihl ihr =>
    simp only [contarPistasPorSuspeitoAux, exibirPistasEmOrdem, List.countP_append,
      List.countP_cons, ihl, ihr]
    cases h : encontrarSuspeito T k with
    | none => simp
    | some s =>
      by_cases hs : s = a
      · simp [hs, strcmp_self]; omega
      · have h0 : strcmp s a ≠ 0 := fun e => hs (eq_of_strcmp_eq_zero s a e)
        simp [hs, h0]

/-- C7: `contarPistasPorSuspeito(t, a, index)` is the number of nodes of `t` whose clue
`encontrarSuspeito` resolves to a suspect equal to `a`; for a non-empty `t`,
`verificarSuspeitoFinal` decides Sustained exactly when that count is at least 2 and Weak
otherwise; and with clues A, B, C and A->X, B->X, C->Y the count is 2 / Sustained for X and
1 / Weak for Y. -/
theorem contarPistasPorSuspeito_veredito (t : PistaNode) (T : Tabela) (a : Texto) :
    contarPistasPorSuspeito t a T =
      (exibirPistasEmOrdem t).countP (fun c => encontrarSuspeito T c = some a) ∧
    (t ≠ .nil →
      (verificarSuspeitoFinal t T a = .sustentada (contarPistasPorSuspeito t a T) ↔
        2 ≤ contarPistasPorSuspeito t a T) ∧
      (verificarSuspeitoFinal t T a = .fraca (contarPistasPorSuspeito t a T) ↔
        contarPistasPorSuspeito t a T < 2)) ∧
    (contarPistasPorSuspeito (inserirTodas [[65], [66], [67]]) [88]
        (construirHash [([65], [88]), ([66], [88]), ([67], [89])]) = 2 ∧
      verificarSuspeitoFinal (inserirTodas [[65], [66], [67]])
        (construirHash [([65], [88]), ([66], [88]), ([67], [89])]) [88] = .sustentada 2 ∧
      contarPistasPorSuspeito (inserirTodas [[65], [66], [67]]) [89]
        (construirHash [([65], [88]), ([66], [88]), ([67], [89])]) = 1 ∧
      verificarSuspeitoFinal (inserirTodas [[65], [66], [67]])
        (construirHash [([65], [88]), ([66], [88]), ([67], [89])]) [89] = .fraca 1) := by
  refine ⟨contarPistasPorSuspeitoAux_eq_countP t T a, ?_, by decide⟩
  intro ht
  cases t with
  | nil => exact absurd rfl ht
  | node k l r =>
    simp only [verificarSuspeitoFinal]
    by_cases h : contarPistasPorSuspeito (.node k l r) a T ≥ 2
    · rw [if_pos h]
      exact ⟨⟨fun _ => h, fun _ => rfl⟩, ⟨fun e => (by cases e), fun h2 => (by omega)⟩⟩
    · rw [if_neg h]
      exact ⟨⟨fun e => (by cases e), fun h2 => absurd h2 h⟩, ⟨fun _ => (by omega), fun _ => rfl⟩⟩

/-- Witness of C7: the collection A, B, C with A->X, B->X, C->Y and the accused Y is not
empty, its count is below 2 and the decision is Weak. -/
theorem contarPistasPorSuspeito_veredito_witness :
    inserirTodas [[65], [66], [67]] ≠ .nil ∧
    contarPistasPorSuspeito (inserirTodas [[65], [66], [67]]) [89]
      (construirHash [([65], [88]), ([66], [88]), ([67], [89])]) < 2 ∧
    verificarSuspeitoFinal (inserirTodas [[65], [66], [67]])
      (construirHash [([65], [88]), ([66], [88]), ([67], [89])]) [89] =
      .fraca (contarPistasPorSuspeito (inserirTodas [[65], [66], [67]]) [89]
        (construirHash [([65], [88]), ([66], [88]), ([67], [89])])) :=
  ⟨by decide, by decide,
    ((contarPistasPorSuspeito_veredito (inserirTodas [[65], [66], [67]])
      (construirHash [([65], [88]), ([66], [88]), ([67], [89])]) [89]).2.1
      (by decide)).2.2 (by decide)⟩

/-- C8: `verificarSuspeitoFinal` gives the result "no clues collected", which carries no
count and no decision, exactly when the clue collection is empty, whatever the table and
the accused name; for every non-empty collection it gives Sustained or Weak. -/
theorem verificarSuspeitoFinal_semPistas (t : PistaNode) (T : Tabela) (a : Texto) :
    (verificarSuspeitoFinal t T a = .semPistas ↔ t = .nil) ∧
    verificarSuspeitoFinal .nil T a = .semPistas ∧
    (t ≠ .nil →
      verificarSuspeitoFinal t T a = .sustentada (contarPistasPorSuspeito t a T) ∨
      verificarSuspeitoFinal t T a = .fraca (contarPistasPorSuspeito t a T)) := by
  cases t with
  | nil => exact ⟨⟨fun _ => rfl, fun _ => rfl⟩, rfl, fun h => absurd rfl h⟩
  | node k l r =>
    refine ⟨⟨?_, fun h => by cases h⟩, rfl, fun _ => ?_⟩
    · intro h
      simp only [verificarSuspeitoFinal] at h
      split_ifs at h
    · simp only [verificarSuspeitoFinal]
      split_ifs
      · exact Or.inl rfl
      · exact Or.inr rfl

/-- Witness of C8: a collection of one clue gets a decision. -/
theorem verificarSuspeitoFinal_semPistas_witness :
    PistaNode.node [65] .nil .nil ≠ .nil ∧
    (verificarSuspeitoFinal (.node [65] .nil .nil) tabelaVazia [88] =
        .sustentada (contarPistasPorSuspeito (.node [65] .nil .nil) [88] tabelaVazia) ∨
      verificarSuspeitoFinal (.node [65] .nil .nil) tabelaVazia [88] =
        .fraca (contarPistasPorSuspeito (.node [65] .nil .nil) [88] tabelaVazia)) :=
  ⟨by decide,
    (verificarSuspeitoFinal_semPistas (.node [65] .nil .nil) tabelaVazia [88]).2.2
      (by decide)⟩

/-- C9: for every clue collection, table and accused name, the empty name included, the
count is at most the number of clues of the collection for which `encontrarSuspeito`
returns a suspect; if it returns `NULL` for every clue of the collection, the count is 0. -/
theorem contarPistasPorSuspeito_le (t : PistaNode) (T : Tabela) (a : Texto) :
    contarPistasPorSuspeito t a T ≤
      (exibirPistasEmOrdem t).countP (fun c => (encontrarSuspeito T c).isSome) ∧
    contarPistasPorSuspeito t [] T ≤
      (exibirPistasEmOrdem t).countP (fun c => (encontrarSuspeito T c).isSome) ∧
    ((∀ c ∈ exibirPistasEmOrdem t, encontrarSuspeito T c = none) →
      contarPistasPorSuspeito t a T = 0) := by
  have key : ∀ b : Texto, contarPistasPorSuspeito t b T ≤
      (exibirPistasEmOrdem t).countP (fun c => (encontrarSuspeito T c).isSome) := by
    intro b
    unfold contarPistasPorSuspeito
    rw [contarPistasPorSuspeitoAux_eq_countP]
    apply List.countP_mono_left
    intro c _ hc
    simp only [decide_eq_true_eq] at hc
    simp [hc]
  refine ⟨key a, key [], ?_⟩
  intro h
  unfold contarPistasPorSuspeito
  rw [contarPistasPorSuspeitoAux_eq_countP, List.countP_eq_zero]
  intro c hc
  simp [h c hc]

/-- Witness of C9: with the empty table no clue of a collection resolves to a suspect. -/
theorem contarPistasPorSuspeito_le_witness :
    (∀ c ∈ exibirPistasEmOrdem (inserirTodas [[65], [66]]),
      encontrarSuspeito tabelaVazia c = none) ∧
    contarPistasPorSuspeito (inserirTodas [[65], [66]]) [88] tabelaVazia = 0 :=
  ⟨by decide,
    (contarPistasPorSuspeito_le (inserirTodas [[65], [66]]) tabelaVazia [88]).2.2
      (by decide)⟩

/-! ## The exploration -/

theorem explorarLaco_fim (n p : Texto) (l r : Sala) (arv : PistaNode) :
    explorarLaco (.sala n p l r) arv [] =
      { visitadas := [], pistas := coletar p arv, resto := [], terminou := false } := rfl

theorem explorarLaco_cons (n p : Texto) (l r : Sala) (arv : PistaNode) (op : Char)
    (resto : List Char) :
    explorarLaco (.sala n p l r) arv (op :: resto) =
      if op = 'e' ∧ l ≠ .nil then entrar l (explorarLaco l (coletar p arv) resto)
      else if op = 'd' ∧ r ≠ .nil then entrar r (explorarLaco r (coletar p arv) resto)
      else if op = 's' then
        { visitadas := [], pistas := coletar p arv, resto := resto, terminou := true }
      else explorarLaco (.sala n p l r) (coletar p arv) resto := rfl

theorem explorarLaco_caminho (entrada : List Char) :
    ∀ (atual : Sala) (arv : PistaNode), atual ≠ .nil →
      (atual :: (explorarLaco atual arv entrada).visitadas).Chain' EhFilho ∧
      (∃ ds, ds.Sublist (entrada.takeWhile (fun c => c ≠ 's')) ∧
        seguir atual ds = some (atual :: (explorarLaco atual arv entrada).visitadas)) ∧
      ((explorarLaco atual arv entrada).terminou = true ↔ 's' ∈ entrada) ∧
      (explorarLaco atual arv entrada).resto =
        (entrada.dropWhile (fun c => c ≠ 's')).tail := by
  induction entrada with
  | nil =>
    intro atual arv h
    cases atual with
    | nil => exact absurd rfl h
    | sala n p l r =>
      rw [explorarLaco_fim]
      refine ⟨by simp, ⟨[], by simp, rfl⟩, by simp, rfl⟩
  | cons op resto ih =>
    intro atual arv h
    cases atual with
    | nil => exact absurd rfl h
    | sala n p l r =>
      rw [explorarLaco_cons]
      by_cases c1 : op = 'e' ∧ l ≠ .nil
      · rw [if_pos c1]
        obtain ⟨i1, ⟨ds, i2, i3⟩, i4, i5⟩ := ih l (coletar p arv) c1.2
        have hs : op ≠ 's' := by rw [c1.1]; decide
        refine ⟨?_, ⟨'e' :: ds, ?_, ?_⟩, ?_, ?_⟩
        · exact List.Chain'.cons ⟨c1.2, Or.inl rfl⟩ i1
        · rw [c1.1]
          simpa using i2
        · simp [seguir, esquerdaDe, c1.2, i3, entrar]
        · simp [entrar, i4, hs.symm]
        · simp [entrar, i5, hs]
      · rw [if_neg c1]
        by_cases c2 : op = 'd' ∧ r ≠ .nil
        · rw [if_pos c2]
          obtain ⟨i1, ⟨ds, i2, i3⟩, i4, i5⟩ := ih r (coletar p arv) c2.2
          have hs : op ≠ 's' := by rw [c2.1]; decide
          refine ⟨?_, ⟨'d' :: ds, ?_, ?_⟩, ?_, ?_⟩
          · exact List.Chain'.cons ⟨c2.2, Or.inr rfl⟩ i1
          · rw [c2.1]
            simpa using i2
          · simp [seguir, direitaDe, c2.2, i3, entrar]
          · simp [entrar, i4, hs.symm]
          · simp [entrar, i5, hs]
        · rw [if_neg c2]
          by_cases c3 : op = 's'
          · rw [if_pos c3]
            refine ⟨by simp, ⟨[], by simp, rfl⟩, by simp [c3], by simp [c3]⟩
          · rw [if_neg c3]
            obtain ⟨i1, ⟨ds, i2, i3⟩, i4, i5⟩ := ih (.sala n p l r) (coletar p arv) h
            refine ⟨i1, ⟨ds, ?_, i3⟩, ?_, ?_⟩
            · simp only [List.takeWhile_cons, c3, ne_eq, not_false_eq_true, decide_True]
              exact List.Sublist.cons _ i2
            · simp [i4, Ne.symm c3]
            · simp [i5, c3]

/-! ## Claims on the exploration -/

/-- C10: for every room tree and every sequence of decisions fed to `explorarSalas` from
the root, the rooms entered form one downward path starting at the root, each next room
being the left or right child of the room before it, reached by following valid descend
decisions taken in order from the decisions before the first `s`; the run has ended
exactly when the decisions contain an `s`, and the decisions left unread are all those
after the first `s`, so no enclosing level reads a decision after the run ends. -/
theorem explorarSalas_caminho_unico (nome pista : Texto) (esq dir : Sala) (arv : PistaNode)
    (entrada : List Char) :
    (explorarSalas (.sala nome pista esq dir) arv entrada).visitadas.head? =
      some (.sala nome pista esq dir) ∧
    (explorarSalas (.sala nome pista esq dir) arv entrada).visitadas.Chain' EhFilho ∧
    (∃ ds, ds.Sublist (entrada.takeWhile (fun c => c ≠ 's')) ∧
      seguir (.sala nome pista esq dir) ds =
        some (explorarSalas (.sala nome pista esq dir) arv entrada).visitadas) ∧
    ((explorarSalas (.sala nome pista esq dir) arv entrada).terminou = true ↔
      's' ∈ entrada) ∧
    (explorarSalas (.sala nome pista esq dir) arv entrada).resto =
      (entrada.dropWhile (fun c => c ≠ 's')).tail := by
  obtain ⟨h1, h2, h3, h4⟩ :=
    explorarLaco_caminho entrada (.sala nome pista esq dir) arv (by simp)
  exact ⟨rfl, h1, h2, h3, h4⟩

/-- Witness of C10: in a mansion with a hall, a left room that has a left closet, and a
right room, the decisions `e x d e s d` enter the hall, the left room and the closet, stop
at the `s`, and leave the last `d` unread. -/
theorem explorarSalas_caminho_unico_witness :
    (explorarSalas
      (.sala [72] [] (.sala [76] [] (.sala [67] [] .nil .nil) .nil) (.sala [82] [] .nil .nil))
      .nil ['e', 'x', 'd', 'e', 's', 'd']).visitadas =
      [.sala [72] [] (.sala [76] [] (.sala [67] [] .nil .nil) .nil) (.sala [82] [] .nil .nil),
       .sala [76] [] (.sala [67] [] .nil .nil) .nil,
       .sala [67] [] .nil .nil] ∧
    (explorarSalas
      (.sala [72] [] (.sala [76] [] (.sala [67] [] .nil .nil) .nil) (.sala [82] [] .nil .nil))
      .nil ['e', 'x', 'd', 'e', 's', 'd']).resto = ['d'] ∧
    (explorarSalas
      (.sala [72] [] (.sala [76] [] (.sala [67] [] .nil .nil) .nil) (.sala [82] [] .nil .nil))
      .nil ['e', 'x', 'd', 'e', 's', 'd']).terminou = true :=
  ⟨by decide,
    (explorarSalas_caminho_unico [72] []
      (.sala [76] [] (.sala [67] [] .nil .nil) .nil) (.sala [82] [] .nil .nil)
      .nil ['e', 'x', 'd', 'e', 's', 'd']).2.2.2.2,
    (explorarSalas_caminho_unico [72] []
      (.sala [76] [] (.sala [67] [] .nil .nil) .nil) (.sala [82] [] .nil .nil)
      .nil ['e', 'x', 'd', 'e', 's', 'd']).2.2.2.1.2 (by decide)⟩

/-! ## Clues collected by the exploration -/

theorem coletar_eq (p : Texto) (arv : PistaNode) :
    coletar p arv = inserirPista arv (some p) := by
  unfold coletar
  cases p with
  | nil => simp [strlen, inserirPista_vazia]
  | cons a s => simp [strlen]

theorem coletar_idem (p : Texto) (arv : PistaNode) (hp : p.length ≤ 119) :
    coletar p (coletar p arv) = coletar p arv := by
  rw [coletar_eq, coletar_eq, inserirPista_idem arv p hp]

theorem explorarLaco_coletar (n p : Texto) (l r : Sala) (arv : PistaNode)
    (entrada : List Char) (hp : p.length ≤ 119) :
    explorarLaco (.sala n p l r) (coletar p arv) entrada =
      explorarLaco (.sala n p l r) arv entrada := by
  cases entrada with
  | nil => rw [explorarLaco_fim, explorarLaco_fim, coletar_idem p arv hp]
  | cons op resto => rw [explorarLaco_cons, explorarLaco_cons, coletar_idem p arv hp]

theorem salaValida_sala (n p : Texto) (l r : Sala) (h : salaValida (.sala n p l r) = true) :
    p.length ≤ 119 ∧ salaValida l = true ∧ salaValida r = true := by
  simp only [salaValida, Bool.and_eq_true, decide_eq_true_eq, strlen, MAX_PISTA] at h
  exact ⟨h.1.1.2, h.1.2, h.2⟩

theorem explorarLaco_pistas (entrada : List Char) :
    ∀ (atual : Sala) (arv : PistaNode), salaValida atual = true →
      (∀ s ∈ (explorarLaco atual arv entrada).visitadas, salaValida s = true) ∧
      (explorarLaco atual arv entrada).pistas =
        ((explorarLaco atual arv entrada).visitadas.map pistaDe).foldl
          (fun t p => inserirPista t (some p)) (coletar (pistaDe atual) arv) := by
  induction entrada with
  | nil =>
    intro atual arv _
    cases atual with
    | nil => exact ⟨by simp [explorarLaco], by simp [explorarLaco, pistaDe, coletar, strlen]⟩
    | sala n p l r =>
      rw [explorarLaco_fim]
      exact ⟨by simp, rfl⟩
  | cons op resto ih =>
    intro atual arv hv
    cases atual with
    | nil => exact ⟨by simp [explorarLaco], by simp [explorarLaco, pistaDe, coletar, strlen]⟩
    | sala n p l r =>
      obtain ⟨hp, hl, hr⟩ := salaValida_sala n p l r hv
      rw [explorarLaco_cons]
      by_cases c1 : op = 'e' ∧ l ≠ .nil
      · rw [if_pos c1]
        obtain ⟨i1, i2⟩ := ih l (coletar p arv) hl
        constructor
        · intro s hs
          simp only [entrar, List.mem_cons] at hs
          rcases hs with rfl | hs
          · exact hl
          · exact i1 s hs
        · show (explorarLaco l (coletar p arv) resto).pistas = _
          rw [i2, coletar_eq (pistaDe l)]
          rfl
      · rw [if_neg c1]
        by_cases c2 : op = 'd' ∧ r ≠ .nil
        · rw [if_pos c2]
          obtain ⟨i1, i2⟩ := ih r (coletar p arv) hr
          constructor
          · intro s hs
            simp only [entrar, List.mem_cons] at hs
            rcases hs with rfl | hs
            · exact hr
            · exact i1 s hs
          · show (explorarLaco r (coletar p arv) resto).pistas = _
            rw [i2, coletar_eq (pistaDe r)]
            rfl
        · rw [if_neg c2]
          by_cases c3 : op = 's'
          · rw [if_pos c3]
            exact ⟨by simp, rfl⟩
          · rw [if_neg c3, explorarLaco_coletar n p l r arv resto hp]
            exact ih (.sala n p l r) arv hv

theorem explorarSalas_pistas_eq (raiz : Sala) (entrada : List Char)
    (hv : salaValida raiz = true) :
    (∀ s ∈ (explorarSalas raiz .nil entrada).visitadas, salaValida s = true) ∧
    (explorarSalas raiz .nil entrada).pistas =
      inserirTodas ((explorarSalas raiz .nil entrada).visitadas.map pistaDe) := by
  cases raiz with
  | nil => exact ⟨by simp [explorarSalas], rfl⟩
  | sala n p l r =>
    obtain ⟨i1, i2⟩ := explorarLaco_pistas entrada (.sala n p l r) .nil hv
    constructor
    · intro s hs
      simp only [explorarSalas, entrar, List.mem_cons] at hs
      rcases hs with rfl | hs
      · exact hv
      · exact i1 s hs
    · show (explorarLaco (.sala n p l r) .nil entrada).pistas = _
      rw [i2, coletar_eq]
      rfl

theorem pistaDe_length_le (s : Sala) (h : salaValida s = true) : (pistaDe s).length ≤ 119 := by
  cases s with
  | nil => simp [pistaDe]
  | sala n p l r => exact (salaValida_sala n p l r h).1

theorem numPistas_inserirPista_le (t : PistaNode) (p : Option Texto) :
    numPistas (inserirPista t p) ≤ numPistas t + 1 := by
  cases p with
  | none => rw [inserirPista_null]; omega
  | some p =>
    by_cases hp : p = []
    · subst hp; rw [inserirPista_vazia]; omega
    · induction t with
      | nil => rw [inserirPista_nil p hp]; simp [numPistas]
      | node k l r ihl ihr =>
        rw [inserirPista_node p k l r hp]
        split_ifs <;> simp only [numPistas] <;> omega

/-- C11: in `explorarSalas`, at every room (whose clue fits its array) and with every clue
collection, a decision that is neither `e`, `d` nor `s`, or is `e` without a left child,
or `d` without a right child, leaves the run at the same room with the collection as it
stood after entering the room: the insertion the loop runs again returns the same tree,
no room is entered, and the rest of the run is the run without that decision. -/
theorem explorarSalas_opcao_invalida (nome pista : Texto) (esq dir : Sala) (arv : PistaNode)
    (op : Char) (resto : List Char) (hp : strlen pista ≤ MAX_PISTA - 1)
    (hop : (op ≠ 'e' ∧ op ≠ 'd' ∧ op ≠ 's') ∨ (op = 'e' ∧ esq = .nil) ∨
      (op = 'd' ∧ dir = .nil)) :
    explorarLaco (.sala nome pista esq dir) arv (op :: resto) =
      explorarLaco (.sala nome pista esq dir) (coletar pista arv) resto ∧
    coletar pista (coletar pista arv) = coletar pista arv ∧
    explorarLaco (.sala nome pista esq dir) arv [op] =
      { visitadas := [], pistas := coletar pista arv, resto := [], terminou := false } ∧
    explorarSalas (.sala nome pista esq dir) arv (op :: resto) =
      explorarSalas (.sala nome pista esq dir) arv resto := by
  have c1 : ¬ (op = 'e' ∧ esq ≠ .nil) := by
    rcases hop with h | h | h
    · exact fun c => h.1 c.1
    · exact fun c => c.2 h.2
    · intro c; rw [c.1] at h; exact absurd h.1 (by decide)
  have c2 : ¬ (op = 'd' ∧ dir ≠ .nil) := by
    rcases hop with h | h | h
    · exact fun c => h.2.1 c.1
    · intro c; rw [c.1] at h; exact absurd h.1 (by decide)
    · exact fun c => c.2 h.2
  have c3 : ¬ op = 's' := by
    rcases hop with h | h | h
    · exact h.2.2
    · rw [h.1]; decide
    · rw [h.1]; decide
  have step : ∀ rest, explorarLaco (.sala nome pista esq dir) arv (op :: rest) =
      explorarLaco (.sala nome pista esq dir) (coletar pista arv) rest := by
    intro rest
    rw [explorarLaco_cons, if_neg c1, if_neg c2, if_neg c3]
  have idem := coletar_idem pista arv hp
  refine ⟨step resto, idem, ?_, ?_⟩
  · rw [step [], explorarLaco_fim, idem]
  · simp only [explorarSalas]
    rw [step resto, explorarLaco_coletar nome pista esq dir arv resto hp]

/-- Witness of C11: in a room without children, with the clue `A` and an empty collection,
the decisions `x s` run like the decision `s` alone. -/
theorem explorarSalas_opcao_invalida_witness :
    strlen [65] ≤ MAX_PISTA - 1 ∧
    (('x' ≠ 'e' ∧ 'x' ≠ 'd' ∧ 'x' ≠ 's') ∨ ('x' = 'e' ∧ Sala.nil = .nil) ∨
      ('x' = 'd' ∧ Sala.nil = .nil)) ∧
    explorarSalas (.sala [72] [65] .nil .nil) .nil ['x', 's'] =
      explorarSalas (.sala [72] [65] .nil .nil) .nil ['s'] :=
  ⟨by decide, by decide,
    (explorarSalas_opcao_invalida [72] [65] .nil .nil .nil 'x' ['s'] (by decide)
      (by decide)).2.2.2⟩

/-- C12: for every room tree (whose texts fit their arrays) and every decision sequence,
starting from an empty collection, the collection `explorarSalas` leaves is the one built
by inserting the clues of the rooms entered, in order; its in-order contents are strictly
ascending and are exactly the non-empty clue texts of the rooms entered; a room with an
empty clue causes no insertion. -/
theorem explorarSalas_pistas_coletadas (raiz : Sala) (entrada : List Char)
    (hv : salaValida raiz = true) :
    (explorarSalas raiz .nil entrada).pistas =
      inserirTodas ((explorarSalas raiz .nil entrada).visitadas.map pistaDe) ∧
    (exibirPistasEmOrdem (explorarSalas raiz .nil entrada).pistas).Pairwise
      (fun a b => strcmp a b < 0) ∧
    (∀ x, x ∈ exibirPistasEmOrdem (explorarSalas raiz .nil entrada).pistas ↔
      x ≠ [] ∧ ∃ s ∈ (explorarSalas raiz .nil entrada).visitadas, pistaDe s = x) ∧
    (∀ arv, coletar [] arv = arv) := by
  obtain ⟨h1, h2⟩ := explorarSalas_pistas_eq raiz entrada hv
  have hb : ∀ p ∈ (explorarSalas raiz .nil entrada).visitadas.map pistaDe, p.length ≤ 119 := by
    intro p hp
    obtain ⟨s, hs, rfl⟩ := List.mem_map.1 hp
    exact pistaDe_length_le s (h1 s hs)
  refine ⟨h2, ?_, ?_, fun arv => by simp [coletar, strlen]⟩
  · rw [h2]
    exact ascendente_inserirTodas _ hb
  · intro x
    rw [h2]
    unfold inserirTodas
    rw [mem_foldl_inserirPista _ hb]
    simp only [exibirPistasEmOrdem, List.not_mem_nil, false_or, List.mem_map]
    constructor
    · rintro ⟨⟨s, hs, e⟩, hx⟩
      exact ⟨hx, s, hs, e⟩
    · rintro ⟨hx, s, hs, e⟩
      exact ⟨⟨s, hs, e⟩, hx⟩

/-- Witness of C12: a hall with the clue `B` and a left room with the clue `A`, explored
with the decisions `e s`, leave the collection `A`, `B`. -/
theorem explorarSalas_pistas_coletadas_witness :
    salaValida (.sala [72] [66] (.sala [76] [65] .nil .nil) .nil) = true ∧
    (explorarSalas (.sala [72] [66] (.sala [76] [65] .nil .nil) .nil) .nil
      ['e', 's']).pistas =
      inserirTodas ((explorarSalas (.sala [72] [66] (.sala [76] [65] .nil .nil) .nil) .nil
        ['e', 's']).visitadas.map pistaDe) ∧
    exibirPistasEmOrdem (explorarSalas (.sala [72] [66] (.sala [76] [65] .nil .nil) .nil)
      .nil ['e', 's']).pistas = [[65], [66]] :=
  ⟨by decide,
    (explorarSalas_pistas_coletadas (.sala [72] [66] (.sala [76] [65] .nil .nil) .nil)
      ['e', 's'] (by decide)).1,
    by decide⟩

/-- C13: for every room tree whose root has a left child (the clues of both rooms fitting
their arrays), `explorarSalas` from the root with the decisions `e`, `s` and an empty
collection enters exactly the root and then its left child, returns with no decision left,
and leaves a collection of at most two clues, all of them clues of these two rooms, that
holds the clue of each of the two rooms exactly when that clue is not empty. -/
theorem explorarSalas_esquerda_sair (n p n1 p1 : Texto) (l1 r1 r : Sala)
    (hp : strlen p ≤ MAX_PISTA - 1) (hp1 : strlen p1 ≤ MAX_PISTA - 1) :
    (explorarSalas (.sala n p (.sala n1 p1 l1 r1) r) .nil ['e', 's']).visitadas =
      [.sala n p (.sala n1 p1 l1 r1) r, .sala n1 p1 l1 r1] ∧
    (explorarSalas (.sala n p (.sala n1 p1 l1 r1) r) .nil ['e', 's']).terminou = true ∧
    (explorarSalas (.sala n p (.sala n1 p1 l1 r1) r) .nil ['e', 's']).resto = [] ∧
    numPistas (explorarSalas (.sala n p (.sala n1 p1 l1 r1) r) .nil ['e', 's']).pistas ≤ 2 ∧
    (∀ x ∈ exibirPistasEmOrdem
        (explorarSalas (.sala n p (.sala n1 p1 l1 r1) r) .nil ['e', 's']).pistas,
      x = p ∨ x = p1) ∧
    (p ∈ exibirPistasEmOrdem
        (explorarSalas (.sala n p (.sala n1 p1 l1 r1) r) .nil ['e', 's']).pistas ↔ p ≠ []) ∧
    (p1 ∈ exibirPistasEmOrdem
        (explorarSalas (.sala n p (.sala n1 p1 l1 r1) r) .nil ['e', 's']).pistas ↔
      p1 ≠ []) := by
  have e : explorarSalas (.sala n p (.sala n1 p1 l1 r1) r) .nil ['e', 's'] =
      { visitadas := [.sala n p (.sala n1 p1 l1 r1) r, .sala n1 p1 l1 r1],
        pistas := inserirTodas [p, p1], resto := [], terminou := true } := by
    simp [explorarSalas, explorarLaco_cons, entrar, inserirTodas, coletar_eq]
  have hb : ∀ q ∈ [p, p1], q.length ≤ 119 := by
    intro q hq
    simp only [List.mem_cons, List.mem_singleton, List.not_mem_nil, or_false] at hq
    rcases hq with rfl | rfl
    · exact hp
    · exact hp1
  have hm : ∀ x, x ∈ exibirPistasEmOrdem (inserirTodas [p, p1]) ↔
      (x = p ∨ x = p1) ∧ x ≠ [] := by
    intro x
    unfold inserirTodas
    rw [mem_foldl_inserirPista _ hb]
    simp [exibirPistasEmOrdem]
  rw [e]
  refine ⟨rfl, rfl, rfl, ?_, ?_, ?_, ?_⟩
  · have a1 := numPistas_inserirPista_le .nil (some p)
    have a2 := numPistas_inserirPista_le (inserirPista .nil (some p)) (some p1)
    simp only [inserirTodas, List.foldl_cons, List.foldl_nil]
    simp only [numPistas] at a1
    omega
  · intro x hx
    exact ((hm x).1 hx).1
  · simp [hm]
  · simp [hm]

/-- Witness of C13: the hall holds the clue `B`, its left room no clue. -/
theorem explorarSalas_esquerda_sair_witness :
    strlen [66] ≤ MAX_PISTA - 1 ∧ strlen [] ≤ MAX_PISTA - 1 ∧
    (explorarSalas (.sala [72] [66] (.sala [76] [] .nil .nil) .nil) .nil
      ['e', 's']).visitadas =
      [.sala [72] [66] (.sala [76] [] .nil .nil) .nil, .sala [76] [] .nil .nil] ∧
    exibirPistasEmOrdem (explorarSalas (.sala [72] [66] (.sala [76] [] .nil .nil) .nil)
      .nil ['e', 's']).pistas = [[66]] :=
  ⟨by decide, by decide,
    (explorarSalas_esquerda_sair [72] [66] [76] [] .nil .nil .nil (by decide)
      (by decide)).1,
    by decide⟩

/-! ## The hash function -/

theorem foldl_hash_mod (s : Texto) (h : Nat) :
    s.foldl (fun h b => (h * 31 + b) % 2 ^ 32) (h % 2 ^ 32) =
      (s.foldl (fun h b => h * 31 + b) h) % 2 ^ 32 := by
  induction s generalizing h with
  | nil => rfl
  | cons b s ih =>
    simp only [List.foldl_cons]
    rw [← ih]
    congr 1
    omega

theorem hashString_eq_acumuladorEspec (s : Texto) :
    hashString s = (acumuladorEspec s % 2 ^ 32) % HASH_SIZE := by
  unfold hashString acumuladorEspec
  rw [← foldl_hash_mod s 0]
  rfl

theorem foldl_eq_somaPolinomial (s : Texto) (h : Nat) :
    s.foldl (fun h b => h * 31 + b) h = h * 31 ^ s.length + somaPolinomial s := by
  induction s generalizing h with
  | nil => simp [somaPolinomial]
  | cons b s ih =>
    simp only [List.foldl_cons, ih, somaPolinomial, List.length_cons, pow_succ]
    ring

theorem acumulador32_eq_foldl (s : Texto) (h : Nat) :
    acumulador32 h s = s.foldl (fun h b => (h * 31 + b) % 2 ^ 32) h := by
  induction s generalizing h with
  | nil => rfl
  | cons b s ih =>
    simp only [acumulador32, List.foldl_cons, ih]
    congr 1
    omega

theorem acumulador32_lt (s : Texto) (h : Nat) (hh : h < 2 ^ 32) :
    acumulador32 h s < 2 ^ 32 := by
  induction s generalizing h with
  | nil => exact hh
  | cons b s ih =>
    simp only [acumulador32]
    exact ih _ (Nat.mod_lt _ (by norm_num))

theorem length_construirHash (cs : List (Texto × Texto)) :
    (construirHash cs).length = HASH_SIZE := by
  unfold construirHash
  generalize hT : tabelaVazia = T
  have hl : T.length = HASH_SIZE := by subst hT; simp [tabelaVazia]
  clear hT
  induction cs generalizing T with
  | nil => exact hl
  | cons c cs ih => exact ih _ (by rw [length_inserirNaHash, hl])

/-- C14 (as amended): for every clue text `s`, `hashString(s)` is the polynomial
accumulator (`h` starts at 0 and becomes `h * 31 + byte`, the integer sum of
`byte_i * 31 ^ (n - 1 - i)`) reduced modulo `2 ^ 32`, the size of `unsigned int`, and then
modulo the bucket count 31; it is the integer sum modulo 31 when that sum is below
`2 ^ 32`. -/
theorem hashString_polinomio (s : Texto) :
    acumuladorEspec s = somaPolinomial s ∧
    hashString s = (somaPolinomial s % 2 ^ 32) % HASH_SIZE ∧
    (somaPolinomial s < 2 ^ 32 → hashString s = somaPolinomial s % HASH_SIZE) := by
  have e : acumuladorEspec s = somaPolinomial s := by
    unfold acumuladorEspec
    rw [foldl_eq_somaPolinomial]
    simp
  refine ⟨e, ?_, ?_⟩
  · rw [hashString_eq_acumuladorEspec, e]
  · intro h
    rw [hashString_eq_acumuladorEspec, e, Nat.mod_eq_of_lt h]

/-- Witness of C14: the text `ab` has the sum `97 * 31 + 98`, below `2 ^ 32`. -/
theorem hashString_polinomio_witness :
    somaPolinomial [97, 98] < 2 ^ 32 ∧ hashString [97, 98] = somaPolinomial [97, 98] % HASH_SIZE :=
  ⟨by decide, (hashString_polinomio [97, 98]).2.2 (by decide)⟩

/-- C14 as stated fails: for the clue `Copo quebrado` of `main` the accumulator passes
`2 ^ 32`; `hashString` gives bucket 3 and the integer sum modulo 31 is 18. -/
theorem hashString_polinomio_copo :
    hashString (literal "Copo quebrado") = 3 ∧
    acumuladorEspec (literal "Copo quebrado") % HASH_SIZE = 18 ∧
    somaPolinomial (literal "Copo quebrado") % HASH_SIZE = 18 ∧
    2 ^ 32 ≤ somaPolinomial (literal "Copo quebrado") := by
  decide

/-- C15: `hashString` is defined for every text and depends on the bytes alone: texts
with the same bytes get the same bucket index, the empty text gets bucket 0, the index is
below 31, and `inserirNaHash` with a clue leaves every other bucket of every table as it
was, whatever the table holds. -/
theorem hashString_deterministica (s t : Texto) :
    (s = t → hashString s = hashString t) ∧
    hashString [] = 0 ∧
    hashString s < HASH_SIZE ∧
    (∀ (T : Tabela) (suspeito : Texto) (i : Nat), i ≠ hashString s →
      (inserirNaHash T s suspeito).getD i [] = T.getD i []) := by
  refine ⟨fun h => by rw [h], rfl, hashString_lt s, ?_⟩
  intro T suspeito i hi
  rw [inserirNaHash_eq, getD_set_other T _ _ _ (Ne.symm hi)]

/-- Witness of C15: two copies of the text `Copo`. -/
theorem hashString_deterministica_witness :
    literal "Copo" = [67, 111, 112, 111] ∧
    hashString (literal "Copo") = hashString [67, 111, 112, 111] :=
  ⟨by decide, (hashString_deterministica (literal "Copo") [67, 111, 112, 111]).1 (by decide)⟩

/-- C18: `hashString` runs its accumulator in 32-bit unsigned arithmetic: it is the loop
`h := (h * 31 + byte) mod 2 ^ 32` from 0, each operation wrapping, followed by `mod 31`;
the accumulator stays below `2 ^ 32`, the result is below 31, and every table built by
`inserirNaHash` calls has 31 buckets, so `tabela[hashString(s)]` is inside the table. -/
theorem hashString_32_bits (s : Texto) (cs : List (Texto × Texto)) :
    hashString s = (s.foldl (fun h b => (h * 31 + b) % 2 ^ 32) 0) % 31 ∧
    hashString s = acumulador32 0 s % 31 ∧
    acumulador32 0 s < 2 ^ 32 ∧
    hashString s < 31 ∧
    (construirHash cs).length = 31 ∧
    hashString s < (construirHash cs).length ∧
    (∀ suspeito, (inserirNaHash (construirHash cs) s suspeito).getD (hashString s) [] =
      inserirCadeia s suspeito ((construirHash cs).getD (hashString s) [])) := by
  have hl : (construirHash cs).length = 31 := length_construirHash cs
  have hlt : hashString s < 31 := hashString_lt s
  refine ⟨rfl, ?_, acumulador32_lt s 0 (by norm_num), hlt, hl, by rw [hl]; exact hlt, ?_⟩
  · rw [acumulador32_eq_foldl]
    rfl
  · intro suspeito
    rw [inserirNaHash_eq, getD_set_same _ _ _ (by rw [hl]; exact hlt)]

/-! ## The data of `main` -/

set_option maxRecDepth 20000 in
/-- C16: the room tree built by `main` has exactly 8 rooms with `Hall de Entrada` at the
root, and after the seven `inserirNaHash` calls the table holds exactly 7 entries, with
pairwise distinct clue texts, each clue being found by `encontrarSuspeito` with the suspect
it was inserted with. -/
theorem dados_de_main :
    numSalas mansao = 8 ∧
    nomeDe mansao = literal "Hall de Entrada" ∧
    associacoes.length = 7 ∧
    tabelaMain.flatten.length = 7 ∧
    (tabelaMain.flatten.map HashNode.pista).Nodup ∧
    (∀ c ∈ associacoes, encontrarSuspeito tabelaMain c.1 = some c.2) := by
  refine ⟨?_, ?_, ?_, ?_, ?_, ?_⟩ <;> decide

theorem explorarLaco_mem_caminhos (entrada : List Char) :
    ∀ (atual : Sala) (arv : PistaNode), atual ≠ .nil →
      atual :: (explorarLaco atual arv entrada).visitadas ∈ caminhos atual := by
  induction entrada with
  | nil =>
    intro atual arv h
    cases atual with
    | nil => exact absurd rfl h
    | sala n p l r =>
      rw [explorarLaco_fim]
      simp [caminhos]
  | cons op resto ih =>
    intro atual arv h
    cases atual with
    | nil => exact absurd rfl h
    | sala n p l r =>
      rw [explorarLaco_cons]
      by_cases c1 : op = 'e' ∧ l ≠ .nil
      · rw [if_pos c1]
        have := ih l (coletar p arv) c1.2
        simp only [caminhos, entrar, List.mem_cons, List.mem_map, List.mem_append]
        exact Or.inr ⟨_, Or.inl this, rfl⟩
      · rw [if_neg c1]
        by_cases c2 : op = 'd' ∧ r ≠ .nil
        · rw [if_pos c2]
          have := ih r (coletar p arv) c2.2
          simp only [caminhos, entrar, List.mem_cons, List.mem_map, List.mem_append]
          exact Or.inr ⟨_, Or.inr this, rfl⟩
        · rw [if_neg c2]
          by_cases c3 : op = 's'
          · rw [if_pos c3]
            simp [caminhos]
          · rw [if_neg c3]
            exact ih (.sala n p l r) (coletar p arv) h

theorem explorarSalas_mem_caminhos (raiz : Sala) (arv : PistaNode) (entrada : List Char)
    (h : raiz ≠ .nil) : (explorarSalas raiz arv entrada).visitadas ∈ caminhos raiz := by
  cases raiz with
  | nil => exact absurd rfl h
  | sala n p l r => exact explorarLaco_mem_caminhos entrada (.sala n p l r) arv h

theorem countP_eq_countP_filterMap (L : List Texto) (f : Texto → Option Texto) (a : Texto) :
    L.countP (fun c => f c = some a) = (L.filterMap f).countP (fun x => x = a) := by
  induction L with
  | nil => rfl
  | cons c L ih =>
    cases h : f c with
    | none => simp [List.filterMap_cons, h, ih]
    | some s =>
      by_cases hs : s = a
      · simp [List.filterMap_cons, h, hs, ih]
      · simp [List.filterMap_cons, h, hs, ih]

theorem contarPistasPorSuspeito_eq_suspeitosDe (t : PistaNode) (T : Tabela) (a : Texto) :
    contarPistasPorSuspeito t a T = (suspeitosDe t T).countP (fun x => x = a) := by
  unfold contarPistasPorSuspeito suspeitosDe
  rw [contarPistasPorSuspeitoAux_eq_countP, countP_eq_countP_filterMap]

theorem noMaximoUmSustentado_all (S : List Texto) (h : NoMaximoUmSustentado S) (a b : Texto) :
    S.countP (fun x => x = a) ≤ 2 ∧
    (2 ≤ S.countP (fun x => x = a) → 2 ≤ S.countP (fun x => x = b) → a = b) := by
  have hmem : ∀ c : Texto, 0 < S.countP (fun x => x = c) → c ∈ S := by
    intro c hc
    obtain ⟨x, hx, e⟩ := List.countP_pos_iff.1 hc
    simp only [decide_eq_true_eq] at e
    exact e ▸ hx
  constructor
  · by_cases ha : 0 < S.countP (fun x => x = a)
    · exact h.1 a (hmem a ha)
    · omega
  · intro h1 h2
    exact h.2 a (hmem a (by omega)) b (hmem b (by omega)) h1 h2

set_option maxRecDepth 20000 in
theorem salaValida_mansao : salaValida mansao = true := by decide

set_option maxRecDepth 100000 in
theorem caminhos_mansao_sustentado :
    ∀ v ∈ caminhos mansao,
      NoMaximoUmSustentado (suspeitosDe (inserirTodas (v.map pistaDe)) tabelaMain) := by
  unfold NoMaximoUmSustentado
  decide

set_option maxRecDepth 20000 in
/-- C19: with the mansion and the table built by `main`, every exploration run that starts
from an empty collection gives every accused name a count of at most 2, and at most one
accused name a count of 2 or more; and each of `Suspeito A`, `Suspeito B` and `Suspeito C`
gets the decision Sustained in some run. -/
theorem main_no_maximo_um_sustentado (entrada : List Char) (a b : Texto) :
    contarPistasPorSuspeito (explorarSalas mansao .nil entrada).pistas a tabelaMain ≤ 2 ∧
    (2 ≤ contarPistasPorSuspeito (explorarSalas mansao .nil entrada).pistas a tabelaMain →
      2 ≤ contarPistasPorSuspeito (explorarSalas mansao .nil entrada).pistas b tabelaMain →
      a = b) ∧
    verificarSuspeitoFinal (explorarSalas mansao .nil ['d', 'e', 's']).pistas tabelaMain
      (literal "Suspeito A") = .sustentada 2 ∧
    verificarSuspeitoFinal (explorarSalas mansao .nil ['e', 'd', 's']).pistas tabelaMain
      (literal "Suspeito B") = .sustentada 2 ∧
    verificarSuspeitoFinal (explorarSalas mansao .nil ['e', 'e', 'e', 's']).pistas tabelaMain
      (literal "Suspeito C") = .sustentada 2 := by
  have hm : mansao ≠ .nil := by decide
  have hv := explorarSalas_mem_caminhos mansao .nil entrada hm
  have hp := (explorarSalas_pistas_eq mansao entrada salaValida_mansao).2
  have hS := caminhos_mansao_sustentado _ hv
  rw [← hp] at hS
  have key := noMaximoUmSustentado_all _ hS a b
  rw [contarPistasPorSuspeito_eq_suspeitosDe, contarPistasPorSuspeito_eq_suspeitosDe]
  refine ⟨key.1, key.2, ?_, ?_, ?_⟩ <;> decide

set_option maxRecDepth 20000 in
/-- Witness of C19: the run `e e e s` reaches the main bedroom and gives `Suspeito C` the
count 2. -/
theorem main_no_maximo_um_sustentado_witness :
    2 ≤ contarPistasPorSuspeito (explorarSalas mansao .nil ['e', 'e', 'e', 's']).pistas
      (literal "Suspeito C") tabelaMain ∧
    literal "Suspeito C" = literal "Suspeito C" :=
  ⟨by decide,
    (main_no_maximo_um_sustentado ['e', 'e', 'e', 's'] (literal "Suspeito C")
      (literal "Suspeito C")).2.1 (by decide) (by decide)⟩

/-! ## Reference semantics of the clue collection -/

theorem strcmp_le_total (a b : Texto) : strcmp a b ≤ 0 ∨ strcmp b a ≤ 0 := by
  by_cases h : strcmp a b ≤ 0
  · exact Or.inl h
  · right
    have := (strcmp_pos_iff a b).1 (by omega)
    omega

theorem strcmp_le_trans (a b c : Texto) (h1 : strcmp a b ≤ 0) (h2 : strcmp b c ≤ 0) :
    strcmp a c ≤ 0 := by
  by_cases e1 : strcmp a b = 0
  · rw [eq_of_strcmp_eq_zero a b e1]; exact h2
  · by_cases e2 : strcmp b c = 0
    · rw [← eq_of_strcmp_eq_zero b c e2]; exact h1
    · have := strcmp_trans a b c (by omega) (by omega)
      omega

theorem strcmp_le_antisymm (a b : Texto) (h1 : strcmp a b ≤ 0) (h2 : strcmp b a ≤ 0) :
    a = b := by
  by_cases e : strcmp a b = 0
  · exact eq_of_strcmp_eq_zero a b e
  · have := (strcmp_pos_iff b a).2 (by omega)
    omega

/-- Two strictly ascending lists with the same members are equal. -/
theorem eq_of_ascendente_of_mem (l1 l2 : List Texto)
    (h1 : l1.Pairwise (fun a b => strcmp a b < 0))
    (h2 : l2.Pairwise (fun a b => strcmp a b ≤ 0)) (hn : l2.Nodup)
    (hm : ∀ x, x ∈ l1 ↔ x ∈ l2) : l1 = l2 := by
  haveI : IsAntisymm Texto (fun a b => strcmp a b ≤ 0) := ⟨strcmp_le_antisymm⟩
  have hn1 : l1.Nodup := by
    refine List.Pairwise.imp ?_ h1
    intro a b hab heq
    rw [heq, strcmp_self] at hab
    omega
  have hp : l1.Perm l2 := (List.perm_ext_iff_of_nodup hn1 hn).2 hm
  have h1' : l1.Pairwise (fun a b => strcmp a b ≤ 0) :=
    List.Pairwise.imp (fun h => by omega) h1
  exact List.eq_of_perm_of_sorted hp h1' h2

theorem referencia_sorted (ps : List Texto) :
    (referencia ps).Pairwise (fun a b => strcmp a b ≤ 0) := by
  haveI : IsTotal Texto (fun a b => strcmp a b ≤ 0) := ⟨strcmp_le_total⟩
  haveI : IsTrans Texto (fun a b => strcmp a b ≤ 0) := ⟨strcmp_le_trans⟩
  exact List.sorted_insertionSort _ _

theorem referencia_nodup (ps : List Texto) : (referencia ps).Nodup :=
  (List.perm_insertionSort _ _).nodup_iff.2 (List.nodup_dedup _)

theorem mem_referencia (ps : List Texto) (x : Texto) :
    x ∈ referencia ps ↔ x ∈ ps ∧ x ≠ [] := by
  unfold referencia
  rw [(List.perm_insertionSort _ _).mem_iff, List.mem_dedup, List.mem_filter]
  simp

theorem mem_exibir_inserirTodas (ps : List Texto) (h : ∀ p ∈ ps, p.length ≤ 119) (x : Texto) :
    x ∈ exibirPistasEmOrdem (inserirTodas ps) ↔ x ∈ ps ∧ x ≠ [] := by
  unfold inserirTodas
  rw [mem_foldl_inserirPista ps h]
  simp [exibirPistasEmOrdem]

/-- C17 (as amended): for every sequence of `inserirPista` calls with texts of at most 119
bytes, starting from the empty collection, the in-order traversal of the result is the
sorted list, without repeats, of the non-empty texts of the sequence; a text is in the
collection iff it is non-empty and was inserted; and two such sequences with the same set
of non-empty texts give the same traversal. -/
theorem exibirPistasEmOrdem_referencia (ps qs : List Texto)
    (hps : ∀ p ∈ ps, strlen p ≤ MAX_PISTA - 1) (hqs : ∀ q ∈ qs, strlen q ≤ MAX_PISTA - 1) :
    exibirPistasEmOrdem (inserirTodas ps) = referencia ps ∧
    (∀ x, x ∈ exibirPistasEmOrdem (inserirTodas ps) ↔ x ≠ [] ∧ x ∈ ps) ∧
    ((∀ x, x ≠ [] → (x ∈ ps ↔ x ∈ qs)) →
      exibirPistasEmOrdem (inserirTodas ps) = exibirPistasEmOrdem (inserirTodas qs)) := by
  have key : ∀ rs : List Texto, (∀ r ∈ rs, r.length ≤ 119) →
      exibirPistasEmOrdem (inserirTodas rs) = referencia rs := by
    intro rs hrs
    refine eq_of_ascendente_of_mem _ _ (ascendente_inserirTodas rs hrs) (referencia_sorted rs)
      (referencia_nodup rs) ?_
    intro x
    rw [mem_exibir_inserirTodas rs hrs, mem_referencia]
  refine ⟨key ps hps, ?_, ?_⟩
  · intro x
    rw [mem_exibir_inserirTodas ps hps]
    exact And.comm
  · intro h
    refine eq_of_ascendente_of_mem _ _ (ascendente_inserirTodas ps hps) ?_
      (nodup_of_ascendente _ (ascendente_inserirTodas qs hqs)) ?_
    · exact List.Pairwise.imp (fun h => by omega) (ascendente_inserirTodas qs hqs)
    · intro x
      rw [mem_exibir_inserirTodas ps hps, mem_exibir_inserirTodas qs hqs]
      constructor
      · rintro ⟨h1, h2⟩
        exact ⟨(h x h2).1 h1, h2⟩
      · rintro ⟨h1, h2⟩
        exact ⟨(h x h2).2 h1, h2⟩

/-- Witness of C17: the texts `b`, `a`, `b` and the texts `a`, empty, `b` give the same
traversal. -/
theorem exibirPistasEmOrdem_referencia_witness :
    (∀ p ∈ [[98], [97], [98]], strlen p ≤ MAX_PISTA - 1) ∧
    (∀ q ∈ [[97], [], [98]], strlen q ≤ MAX_PISTA - 1) ∧
    (∀ x : Texto, x ≠ [] → (x ∈ [[98], [97], [98]] ↔ x ∈ [[97], [], [98]])) ∧
    exibirPistasEmOrdem (inserirTodas [[98], [97], [98]]) = referencia [[98], [97], [98]] ∧
    exibirPistasEmOrdem (inserirTodas [[98], [97], [98]]) =
      exibirPistasEmOrdem (inserirTodas [[97], [], [98]]) :=
  ⟨by decide, by decide, by intro x hx; simp [hx]; tauto,
    (exibirPistasEmOrdem_referencia [[98], [97], [98]] [[97], [], [98]] (by decide)
      (by decide)).1,
    (exibirPistasEmOrdem_referencia [[98], [97], [98]] [[97], [], [98]] (by decide)
      (by decide)).2.2 (by intro x hx; simp [hx]; tauto)⟩

set_option maxRecDepth 20000 in
/-- C17 as stated fails: after the insertion of a text of 120 bytes the traversal holds
its first 119 bytes, the reference list holds the text itself, and the text, non-empty and
inserted, is not in the collection. -/
theorem exibirPistasEmOrdem_referencia_longa :
    exibirPistasEmOrdem (inserirTodas [pistaLonga]) = [List.replicate 119 97] ∧
    referencia [pistaLonga] = [pistaLonga] ∧
    exibirPistasEmOrdem (inserirTodas [pistaLonga]) ≠ referencia [pistaLonga] ∧
    pistaLonga ∉ exibirPistasEmOrdem (inserirTodas [pistaLonga]) := by
  decide

/-! ## Stored texts -/

theorem exibirPistasEmOrdem_inserirPista_perm (t : PistaNode) (p : Texto) (hp : p ≠ []) :
    exibirPistasEmOrdem (inserirPista t (some p)) = exibirPistasEmOrdem t ∨
    (exibirPistasEmOrdem (inserirPista t (some p))).Perm
      (p.take 119 :: exibirPistasEmOrdem t) := by
  induction t with
  | nil =>
    right
    rw [inserirPista_nil p hp]
    simp [exibirPistasEmOrdem]
  | node k l r ihl ihr =>
    rw [inserirPista_node p k l r hp]
    split_ifs with c1 c2
    · rcases ihl with h | h
      · left; simp only [exibirPistasEmOrdem, h]
      · right
        simp only [exibirPistasEmOrdem]
        exact (h.append_right _).trans (by simp)
    · rcases ihr with h | h
      · left; simp only [exibirPistasEmOrdem, h]
      · right
        simp only [exibirPistasEmOrdem]
        have h1 : (k :: exibirPistasEmOrdem (inserirPista r (some p))).Perm
            (k :: List.take 119 p :: exibirPistasEmOrdem r) := h.cons k
        have h2 := (h1.trans (List.Perm.swap _ _ _)).append_left (exibirPistasEmOrdem l)
        exact h2.trans List.perm_middle
    · left; rfl

theorem length_le_of_ordenada (t : PistaNode) (ht : Ordenada t) :
    ∀ x ∈ exibirPistasEmOrdem t, x.length ≤ 119 := by
  induction t with
  | nil => simp [exibirPistasEmOrdem]
  | node k l r ihl ihr =>
    obtain ⟨_, _, h3, h4, h5⟩ := ht
    intro x hx
    simp only [exibirPistasEmOrdem, List.mem_append, List.mem_cons] at hx
    rcases hx with h | h | h
    · exact ihl h4 x h
    · rw [h]; exact h3
    · exact ihr h5 x h

theorem strcmp_ne_zero_of_length (p k : Texto) (h : k.length < p.length) : strcmp p k ≠ 0 := by
  intro e
  rw [eq_of_strcmp_eq_zero p k e] at h
  omega

theorem numPistas_inserirPista_longa (t : PistaNode) (p : Texto) (hp : 119 < p.length)
    (ht : ∀ x ∈ exibirPistasEmOrdem t, x.length ≤ 119) :
    numPistas (inserirPista t (some p)) = numPistas t + 1 := by
  have hne : p ≠ [] := by intro e; rw [e] at hp; simp at hp
  induction t with
  | nil => rw [inserirPista_nil p hne]; simp [numPistas]
  | node k l r ihl ihr =>
    have hk : k.length ≤ 119 := ht k (by simp [exibirPistasEmOrdem])
    have h0 := strcmp_ne_zero_of_length p k (by omega)
    have hl : ∀ x ∈ exibirPistasEmOrdem l, x.length ≤ 119 :=
      fun x hx => ht x (by simp [exibirPistasEmOrdem, hx])
    have hr : ∀ x ∈ exibirPistasEmOrdem r, x.length ≤ 119 :=
      fun x hx => ht x (by simp [exibirPistasEmOrdem, hx])
    rw [inserirPista_node p k l r hne]
    split_ifs with c1 c2
    · simp only [numPistas, ihl hl]; omega
    · simp only [numPistas, ihr hr]; omega
    · omega

theorem mem_atualizarCadeia (c s : Texto) (ch ch' : List HashNode) (n : HashNode)
    (h : atualizarCadeia c s ch = some ch') (hn : n ∈ ch') :
    n ∈ ch ∨ ∃ m ∈ ch, m.pista = c ∧ n = { pista := m.pista, suspeito := s.take 79 } := by
  induction ch generalizing ch' with
  | nil => simp [atualizarCadeia] at h
  | cons m rest ih =>
    simp only [atualizarCadeia] at h
    split_ifs at h with h0
    · simp only [Option.some.injEq] at h
      subst h
      rcases List.mem_cons.1 hn with e | e
      · exact Or.inr ⟨m, List.mem_cons_self _ _, eq_of_strcmp_eq_zero _ _ h0,
          by rw [e]; rfl⟩
      · exact Or.inl (List.mem_cons_of_mem _ e)
    · simp only [Option.map_eq_some'] at h
      obtain ⟨r', hr', rfl⟩ := h
      rcases List.mem_cons.1 hn with e | e
      · exact Or.inl (e ▸ List.mem_cons_self _ _)
      · rcases ih r' hr' e with a | ⟨m', hm', a⟩
        · exact Or.inl (List.mem_cons_of_mem _ a)
        · exact Or.inr ⟨m', List.mem_cons_of_mem _ hm', a⟩

theorem mem_inserirCadeia (c s : Texto) (ch : List HashNode) (n : HashNode)
    (hn : n ∈ inserirCadeia c s ch) :
    n ∈ ch ∨ n = { pista := c.take 119, suspeito := s.take 79 } ∨
      ∃ m ∈ ch, m.pista = c ∧ n = { pista := m.pista, suspeito := s.take 79 } := by
  unfold inserirCadeia at hn
  cases h : atualizarCadeia c s ch with
  | none =>
    rw [h] at hn
    rcases List.mem_cons.1 hn with e | e
    · exact Or.inr (Or.inl e)
    · exact Or.inl e
  | some ch' =>
    rw [h] at hn
    rcases mem_atualizarCadeia c s ch ch' n h hn with a | a
    · exact Or.inl a
    · exact Or.inr (Or.inr a)

theorem mem_flatten_of_mem_getD (T : Tabela) (i : Nat) (n : HashNode)
    (hn : n ∈ T.getD i []) : n ∈ T.flatten := by
  rw [List.getD_eq_getElem?_getD] at hn
  cases hg : T[i]? with
  | none => rw [hg] at hn; simp at hn
  | some l =>
    rw [hg] at hn
    exact List.mem_flatten.2 ⟨l, List.getElem?_mem hg, hn⟩

theorem mem_flatten_inserirNaHash (T : Tabela) (c s : Texto) (n : HashNode)
    (hn : n ∈ (inserirNaHash T c s).flatten) :
    n ∈ T.flatten ∨ n = { pista := c.take 119, suspeito := s.take 79 } ∨
      ∃ m ∈ T.flatten, m.pista = c ∧ n = { pista := m.pista, suspeito := s.take 79 } := by
  rw [inserirNaHash_eq] at hn
  obtain ⟨l, hl, hnl⟩ := List.mem_flatten.1 hn
  rcases List.mem_or_eq_of_mem_set hl with h | h
  · exact Or.inl (List.mem_flatten.2 ⟨l, h, hnl⟩)
  · rw [h] at hnl
    rcases mem_inserirCadeia c s _ n hnl with a | a | ⟨m, hm, a⟩
    · exact Or.inl (mem_flatten_of_mem_getD T _ n a)
    · exact Or.inr (Or.inl a)
    · exact Or.inr (Or.inr ⟨m, mem_flatten_of_mem_getD T _ m hm, a⟩)

theorem tabelaLimitada_inserirNaHash (T : Tabela) (c s : Texto) (hT : TabelaLimitada T) :
    TabelaLimitada (inserirNaHash T c s) := by
  intro n hn
  rcases mem_flatten_inserirNaHash T c s n hn with a | a | ⟨m, hm, _, a⟩
  · exact hT n a
  · rw [a]
    simp only [strlen, MAX_PISTA, MAX_NOME, List.length_take]
    omega
  · rw [a]
    refine ⟨(hT m hm).1, ?_⟩
    simp only [strlen, MAX_NOME, List.length_take]
    omega

theorem tabelaLimitada_construirHash (cs : List (Texto × Texto)) :
    TabelaLimitada (construirHash cs) := by
  unfold construirHash
  generalize hT : tabelaVazia = T
  have hl : TabelaLimitada T := by
    subst hT
    intro n hn
    obtain ⟨l, hl, hnl⟩ := List.mem_flatten.1 hn
    rw [tabelaVazia, List.mem_replicate] at hl
    rw [hl.2] at hnl
    simp at hnl
  clear hT
  induction cs generalizing T with
  | nil => exact hl
  | cons c cs ih => exact ih _ (tabelaLimitada_inserirNaHash T c.1 c.2 hl)

theorem buscarCadeia_none_of_ne (q : Texto) (ch : List HashNode)
    (h : ∀ n ∈ ch, n.pista ≠ q) : buscarCadeia q ch = none := by
  induction ch with
  | nil => rfl
  | cons n rest ih =>
    have h0 : strcmp n.pista q ≠ 0 :=
      fun e => h n (List.mem_cons_self _ _) (eq_of_strcmp_eq_zero _ _ e)
    simp only [buscarCadeia, if_neg h0]
    exact ih (fun m hm => h m (List.mem_cons_of_mem _ hm))

theorem atualizarCadeia_none_of_ne (c s : Texto) (ch : List HashNode)
    (h : ∀ n ∈ ch, n.pista ≠ c) : atualizarCadeia c s ch = none := by
  induction ch with
  | nil => rfl
  | cons n rest ih =>
    have h0 : strcmp n.pista c ≠ 0 :=
      fun e => h n (List.mem_cons_self _ _) (eq_of_strcmp_eq_zero _ _ e)
    simp only [atualizarCadeia, if_neg h0, ih (fun m hm => h m (List.mem_cons_of_mem _ hm))]
    rfl

theorem pista_ne_of_limitada (T : Tabela) (hT : TabelaLimitada T) (q : Texto)
    (hq : 119 < q.length) (i : Nat) : ∀ n ∈ T.getD i [], n.pista ≠ q := by
  intro n hn e
  have := (hT n (mem_flatten_of_mem_getD T i n hn)).1
  rw [e] at this
  simp only [strlen, MAX_PISTA] at this
  omega

/-- C20: `criarSala`, `inserirPista` and `inserirNaHash` store the first 119 bytes of a clue
text and the first 79 bytes of a room or suspect name, hence the text itself when it is
that short; the comparisons of `inserirPista`, `inserirNaHash` and `encontrarSuspeito` are
made with the whole argument, so that an argument of more than 119 bytes is never found
equal to a stored text: `inserirPista` always adds a node for it, `inserirNaHash` always
adds an entry at the head of its bucket, and `encontrarSuspeito` returns `NULL`. -/
theorem textos_armazenados (nome pista suspeito : Texto) (ps : List Texto)
    (cs : List (Texto × Texto)) :
    criarSala nome (some pista) = .sala (nome.take 79) (pista.take 119) .nil .nil ∧
    (strlen nome ≤ MAX_NOME - 1 → strlen pista ≤ MAX_PISTA - 1 →
      criarSala nome (some pista) = .sala nome pista .nil .nil) ∧
    (pista ≠ [] →
      exibirPistasEmOrdem (inserirPista (inserirTodas ps) (some pista)) =
        exibirPistasEmOrdem (inserirTodas ps) ∨
      (exibirPistasEmOrdem (inserirPista (inserirTodas ps) (some pista))).Perm
        (pista.take 119 :: exibirPistasEmOrdem (inserirTodas ps))) ∧
    (pista ≠ [] → strlen pista ≤ MAX_PISTA - 1 →
      pista ∈ exibirPistasEmOrdem (inserirPista (inserirTodas ps) (some pista))) ∧
    (∀ n ∈ (inserirNaHash (construirHash cs) pista suspeito).flatten,
      n ∈ (construirHash cs).flatten ∨
      n = { pista := pista.take 119, suspeito := suspeito.take 79 } ∨
      ∃ m ∈ (construirHash cs).flatten,
        m.pista = pista ∧ n = { pista := m.pista, suspeito := suspeito.take 79 }) ∧
    (strlen pista ≤ MAX_PISTA - 1 →
      encontrarSuspeito (inserirNaHash (construirHash cs) pista suspeito) pista =
        some (suspeito.take 79)) ∧
    (strlen pista ≤ MAX_PISTA - 1 → strlen suspeito ≤ MAX_NOME - 1 →
      encontrarSuspeito (inserirNaHash (construirHash cs) pista suspeito) pista =
        some suspeito) ∧
    (MAX_PISTA - 1 < strlen pista →
      numPistas (inserirPista (inserirTodas ps) (some pista)) =
        numPistas (inserirTodas ps) + 1 ∧
      encontrarSuspeito (construirHash cs) pista = none ∧
      (inserirNaHash (construirHash cs) pista suspeito).getD (hashString pista) [] =
        { pista := pista.take 119, suspeito := suspeito.take 79 } ::
          (construirHash cs).getD (hashString pista) [] ∧
      encontrarSuspeito (inserirNaHash (construirHash cs) pista suspeito) pista = none) := by
  have hl := length_construirHash cs
  have hb := tabelaLimitada_construirHash cs
  have e1 : ∀ hp : pista.length ≤ 119,
      encontrarSuspeito (inserirNaHash (construirHash cs) pista suspeito) pista =
        some (suspeito.take 79) := by
    intro hp
    rw [encontrarSuspeito_inserirNaHash _ pista suspeito pista hl hp, if_pos rfl]
  refine ⟨rfl, ?_, ?_, ?_, ?_, e1, ?_, ?_⟩
  · intro h1 h2
    have h1' : nome.length ≤ 79 := h1
    have h2' : pista.length ≤ 119 := h2
    simp only [criarSala, strncpy, MAX_NOME, MAX_PISTA]
    rw [List.take_of_length_le h1', List.take_of_length_le h2']
  · intro hp
    exact exibirPistasEmOrdem_inserirPista_perm _ pista hp
  · intro hp h2
    exact mem_inserirPista_self _ pista hp h2
  · intro n hn
    exact mem_flatten_inserirNaHash _ pista suspeito n hn
  · intro h1 h2
    have h2' : suspeito.length ≤ 79 := h2
    rw [e1 h1, List.take_of_length_le h2']
  · intro hp
    have hp' : 119 < pista.length := hp
    refine ⟨?_, ?_, ?_, ?_⟩
    · exact numPistas_inserirPista_longa _ pista hp'
        (length_le_of_ordenada _ (ordenada_inserirTodas ps))
    · exact buscarCadeia_none_of_ne pista _ (pista_ne_of_limitada _ hb pista hp' _)
    · rw [inserirNaHash_eq, getD_set_same _ _ _ (by rw [hl]; exact hashString_lt pista)]
      unfold inserirCadeia
      rw [atualizarCadeia_none_of_ne pista suspeito _ (pista_ne_of_limitada _ hb pista hp' _)]
      rfl
    · exact buscarCadeia_none_of_ne pista _
        (pista_ne_of_limitada _ (tabelaLimitada_inserirNaHash _ pista suspeito hb) pista hp' _)

set_option maxRecDepth 20000 in
/-- Witness of C20: the clue `A` with the suspect `X` is stored and found unchanged, and
the clue of 120 bytes is not found after it was inserted. -/
theorem textos_armazenados_witness :
    strlen [65] ≤ MAX_PISTA - 1 ∧ strlen [88] ≤ MAX_NOME - 1 ∧
    MAX_PISTA - 1 < strlen pistaLonga ∧
    encontrarSuspeito (inserirNaHash (construirHash []) [65] [88]) [65] = some [88] ∧
    encontrarSuspeito (inserirNaHash (construirHash []) pistaLonga [88]) pistaLonga = none :=
  ⟨by decide, by decide, by decide,
    (textos_armazenados [72] [65] [88] [] []).2.2.2.2.2.2.1 (by decide) (by decide),
    ((textos_armazenados [72] pistaLonga [88] [] []).2.2.2.2.2.2.2 (by decide)).2.2.2⟩

/-- Every room made by `criarSala` holds texts that fit its arrays. -/
theorem salaValida_criarSala (nome : Texto) (pista : Option Texto) :
    salaValida (criarSala nome pista) = true := by
  cases pista with
  | none => simp [criarSala, salaValida, strncpy, strlen, MAX_NOME, MAX_PISTA, List.length_take]
  | some p =>
    simp [criarSala, salaValida, strncpy, strlen, MAX_NOME, MAX_PISTA, List.length_take]

/-- Linking valid rooms gives a valid room. -/
theorem salaValida_ligar (s e d : Sala) (hs : salaValida s = true) (he : salaValida e = true)
    (hd : salaValida d = true) :
    salaValida (comEsquerda s e) = true ∧ salaValida (comDireita s d) = true := by
  cases s with
  | nil => exact ⟨rfl, rfl⟩
  | sala n p l r =>
    simp only [salaValida, Bool.and_eq_true] at hs
    simp only [comEsquerda, comDireita, salaValida, Bool.and_eq_true]
    exact ⟨⟨⟨hs.1.1, he⟩, hs.2⟩, ⟨hs.1, hd⟩⟩

end DetectiveQuest
